import Mathlib

set_option linter.unusedSectionVars false

/-!
Shallow embedding of the MyCache C++ cache library (LRU / LFU / ARC policies,
LRU-K wrapper) and verification of its specification claims.

Modelling conventions:
* C++ `std::unordered_map` contents are association lists in insertion order;
  `operator[]` assignment replaces an existing entry in place or appends.
* Doubly-linked recency lists (between dummy head/tail sentinels) are plain
  Lean lists in node order: head of the list = node adjacent to the dummy
  head (least recent), last element = node adjacent to the dummy tail (most
  recent).  Splice operations are modelled at this list level.
* `size_t` values are `Nat`; C++ `int` values are `Int`.  Mixed
  `size_t`/`int` comparisons convert the `int` operand modulo 2^64, exactly
  as the C++ usual arithmetic conversions do (see `cppSizeGeCap`, `cppUDiv`).
* Statements of the original repository that are referenced but whose text is
  not available (the `ArcLruPart.h`/`ArcCacheNode.h` headers, and a few
  elided call statements inside `put`/`get` bodies) are reconstructed from
  the specification; every such definition or line carries a
  `Modelled from the spec` remark.
-/

namespace CacheCpp

/-- C++ comparison `n >= cap` where `n : size_t` and `cap : int`:
the `int` is converted to `size_t` (i.e. taken modulo 2^64) first. -/
def cppSizeGeCap (n : Nat) (cap : Int) : Bool :=
  decide ((cap.emod (2 ^ 64)).toNat ≤ n)

/-- C++ division `t / n` where `t : int`, `n : size_t`: `t` is converted to
`size_t` (modulo 2^64) and the division is unsigned. -/
def cppUDiv (t : Int) (n : Nat) : Int :=
  (((t.emod (2 ^ 64)).toNat) / n : Nat)

/-- `INT8_MAX`, the sentinel used by `LfuCache` for `minFreq_`. -/
def INT8MAX : Int := 127

section AssocHelpers

variable {A B : Type} [DecidableEq A]

/-- Lookup in an association list (first entry with the given key), as
`unordered_map::find`. -/
def aFind (l : List (A × B)) (a : A) : Option B :=
  (l.find? (fun p => decide (p.1 = a))).map (·.2)

/-- `map[a] = b`: replace the existing entry in place, else append. -/
def aSet (l : List (A × B)) (a : A) (b : B) : List (A × B) :=
  match l with
  | [] => [(a, b)]
  | p :: t => if p.1 = a then (a, b) :: t else p :: aSet t a b

/-- `map.erase(a)`: drop the (first) entry with key `a`. -/
def aErase (l : List (A × B)) (a : A) : List (A × B) :=
  l.eraseP (fun p => decide (p.1 = a))

end AssocHelpers

/-! ## LruCache (src/LruCache.h) -/

/-- `LruNode`: key, value and the access count (initialised to 1). -/
structure LruNode (K V : Type) where
  key : K
  value : V
  accessCount : Nat
deriving Repr, DecidableEq

/-- `LruCache`: capacity (`int`) plus the merged view of `nodeMap_` and the
recency list (head = least recently used, last = most recently used).
Invariant 1 of the spec (map and list agree on membership) lets a single
list carry both. -/
structure LruCache (K V : Type) where
  capacity : Int
  entries : List (LruNode K V)
deriving Repr, DecidableEq

namespace LruCache

variable {K V : Type} [DecidableEq K]

/-- Constructor `LruCache(capacity)`; the sentinel installation (`initList`)
makes the recency list empty. -/
def init (capacity : Int) : LruCache K V :=
  ⟨capacity, []⟩

/-- `nodeMap_.find(key)`. -/
def lookupNode (s : LruCache K V) (k : K) : Option (LruNode K V) :=
  s.entries.find? (fun e => decide (e.key = k))

/-- Unlink the node with key `k` (list splice `removeNode` plus, where the
caller also erases, the map erase). -/
def eraseKey (l : List (LruNode K V)) (k : K) : List (LruNode K V) :=
  l.eraseP (fun e => decide (e.key = k))

/-- `move2MostRecent`: `removeNode` then `insertNode` at the tail-adjacent
position. -/
def move2MostRecent (s : LruCache K V) (e : LruNode K V) : LruCache K V :=
  { s with entries := eraseKey s.entries e.key ++ [e] }

/-- `updateExistingNode`: overwrite the value, then move to most recent. -/
def updateExistingNode (s : LruCache K V) (e : LruNode K V) (v : V) : LruCache K V :=
  s.move2MostRecent { e with value := v }

/-- `evictLeastRecent`: remove the head-adjacent node from list and map. -/
def evictLeastRecent (s : LruCache K V) : LruCache K V :=
  { s with entries := s.entries.tail }

/-- `addNewNode`: evict if `nodeMap_.size() >= capacity_`, then link a new
node (access count 1) tail-adjacent and store it in the map. -/
def addNewNode (s : LruCache K V) (k : K) (v : V) : LruCache K V :=
  let s1 := if cppSizeGeCap s.entries.length s.capacity then s.evictLeastRecent else s
  { s1 with entries := s1.entries ++ [⟨k, v, 1⟩] }

/-- `put(key, value)`.  The guard and the present-key branch follow the
source; the absent-key call to `addNewNode` is Modelled from the spec
("else insert, evicting exactly one entry if at capacity"), the statement
being elided in the source text. -/
def put (s : LruCache K V) (k : K) (v : V) : LruCache K V :=
  if s.capacity ≤ 0 then s
  else
    match s.lookupNode k with
    | some e => s.updateExistingNode e v
    | none => s.addNewNode k v

/-- `get(key, value&) -> bool`: returns the hit flag, the out parameter
after the call, and the new state. -/
def getOut (s : LruCache K V) (k : K) (out : V) : Bool × V × LruCache K V :=
  match s.lookupNode k with
  | some e => (true, e.value, s.move2MostRecent e)
  | none => (false, out, s)

/-- `Value get(Key)`: value-initialise the out parameter, call the
out-parameter `get`, return the out value. -/
def getByValue [Inhabited V] (s : LruCache K V) (k : K) : V × LruCache K V :=
  let r := s.getOut k default
  (r.2.1, r.2.2)

/-- `remove(key)`: unlink and erase when present. -/
def remove (s : LruCache K V) (k : K) : LruCache K V :=
  { s with entries := eraseKey s.entries k }

/-- Well-formedness: the keys of the map/list are distinct (guaranteed by
`std::unordered_map` in the source). -/
def WF (s : LruCache K V) : Prop :=
  (s.entries.map LruNode.key).Nodup

instance (s : LruCache K V) : Decidable s.WF := by
  unfold WF; infer_instance

end LruCache

/-- Operations of the `LruCache` public interface. -/
inductive LruOp (K V : Type) where
  | put (k : K) (v : V)
  | get (k : K)
  | remove (k : K)

/-- One public operation. -/
def LruCache.step {K V : Type} [DecidableEq K] [Inhabited V]
    (s : LruCache K V) : LruOp K V → LruCache K V
  | .put k v => s.put k v
  | .get k => (s.getByValue k).2
  | .remove k => s.remove k

/-- A sequence of public operations. -/
def LruCache.run {K V : Type} [DecidableEq K] [Inhabited V]
    (s : LruCache K V) (ops : List (LruOp K V)) : LruCache K V :=
  ops.foldl LruCache.step s

/-! ## LfuCache (LfuCache.h) -/

/-- `FreqList::Node` payload: the frequency counter (`int`, initialised to 1)
and the value.  The key is the index into the surrounding map. -/
structure LfuNode (V : Type) where
  freq : Int
  value : V
deriving Repr, DecidableEq

/-- `LfuCache` state.  `nodeMap` is `nodeMap_` (key to node, insertion
order); `buckets` is `freqToFreqList_` (frequency to the keys of its
`FreqList`, front = least recently inserted).  Buckets are created on
demand and never deleted (only `purge` clears them). -/
structure LfuCache (K V : Type) where
  capacity : Int
  minFreq : Int
  maxAvgNum : Int
  curAvgNum : Int
  curTotalNum : Int
  nodeMap : List (K × LfuNode V)
  buckets : List (Int × List K)
deriving Repr, DecidableEq

namespace LfuCache

variable {K V : Type} [DecidableEq K]

/-- Constructor `LfuCache(capacity, maxAvgNum = 10)`. -/
def init (capacity maxAvgNum : Int) : LfuCache K V :=
  ⟨capacity, INT8MAX, maxAvgNum, 0, 0, [], []⟩

/-- `removeFromFreqList(node)`: look the bucket up by the node's current
frequency and unlink the node there; absent bucket (or node not linked)
means no effect. -/
def removeKeyFromBucket (bs : List (Int × List K)) (f : Int) (k : K) : List (Int × List K) :=
  match aFind bs f with
  | some l => aSet bs f (l.eraseP (fun x => decide (x = k)))
  | none => bs

/-- `addToFreqList(node)`: create the bucket when absent, then link the node
at the back.  (The source dereferences the stale `find` iterator right
after inserting the new `FreqList`; the evident intent, adding to the
just-created bucket, is modelled.) -/
def addKeyToBucket (bs : List (Int × List K)) (f : Int) (k : K) : List (Int × List K) :=
  match aFind bs f with
  | some l => aSet bs f (l ++ [k])
  | none => bs ++ [(f, [k])]

/-- `freqToFreqList_[f]->isEmpty()`.  An absent bucket reads as empty (the
source would dereference a null `FreqList*` there; the situation is
unreachable in well-formed states). -/
def bucketIsEmpty (bs : List (Int × List K)) (f : Int) : Bool :=
  match aFind bs f with
  | some l => l.isEmpty
  | none => true

/-- `freqToFreqList_[f]` used as an lvalue: creates the entry when absent. -/
def bucketEnsure (bs : List (Int × List K)) (f : Int) : List (Int × List K) :=
  match aFind bs f with
  | some _ => bs
  | none => bs ++ [(f, [])]

/-- Recompute `curAvgNum_` from `curTotalNum_` and the map size (shared tail
of `addFreqNum` / `decreaseFreqNum`); empty map gives 0. -/
def recomputeAvg (s : LfuCache K V) : LfuCache K V :=
  if s.nodeMap.isEmpty then { s with curAvgNum := 0 }
  else { s with curAvgNum := cppUDiv s.curTotalNum s.nodeMap.length }

/-- The aged frequency: `freq -= maxAvgNum_/2; if (freq <= 0) freq = 1;`. -/
def agedFreq (maxAvgNum f : Int) : Int :=
  let f1 := f - maxAvgNum.tdiv 2
  if f1 ≤ 0 then 1 else f1

/-- One iteration of the `handleOverMaxAvgNum` loop: move the node of key
`k` from its current bucket into the bucket of its aged frequency (a null
node is skipped, as in the source guard). -/
def ageOne (maxAvgNum : Int) (st : List (K × LfuNode V) × List (Int × List K)) (k : K) :
    List (K × LfuNode V) × List (Int × List K) :=
  match aFind st.1 k with
  | some nd =>
      let bs1 := removeKeyFromBucket st.2 nd.freq k
      let f1 := agedFreq maxAvgNum nd.freq
      (aSet st.1 k ⟨f1, nd.value⟩, addKeyToBucket bs1 f1 k)
  | none => st

/-- The value computed by `updateMinFreq`: fold `min` over the keys of the
non-empty buckets starting from `INT8_MAX`, then replace the untouched
sentinel by 1. -/
def updateMinFreqVal (bs : List (Int × List K)) : Int :=
  let m := bs.foldl (fun acc p => if p.2.isEmpty then acc else min acc p.1) INT8MAX
  if m = INT8MAX then 1 else m

/-- `updateMinFreq()`. -/
def updateMinFreq (s : LfuCache K V) : LfuCache K V :=
  { s with minFreq := updateMinFreqVal s.buckets }

/-- `handleOverMaxAvgNum()`: age every entry (iterating the map in its
order), then recompute `minFreq_`. -/
def handleOverMaxAvgNum (s : LfuCache K V) : LfuCache K V :=
  if s.nodeMap.isEmpty then s
  else
    let st := (s.nodeMap.map Prod.fst).foldl (ageOne s.maxAvgNum) (s.nodeMap, s.buckets)
    updateMinFreq { s with nodeMap := st.1, buckets := st.2 }

/-- `addFreqNum()`: bump the total, recompute the average, trigger aging
when the average exceeds `maxAvgNum_`. -/
def addFreqNum (s : LfuCache K V) : LfuCache K V :=
  let s1 := recomputeAvg { s with curTotalNum := s.curTotalNum + 1 }
  if s1.curAvgNum > s1.maxAvgNum then s1.handleOverMaxAvgNum else s1

/-- `decreaseFreqNum(num)`. -/
def decreaseFreqNum (s : LfuCache K V) (num : Int) : LfuCache K V :=
  recomputeAvg { s with curTotalNum := s.curTotalNum - num }

/-- `kickOut()`: take the front node of the `minFreq_` bucket (`operator[]`
creates the bucket when absent), unlink it, erase its key from the map and
subtract its frequency.  On an empty bucket `getFirstNode` yields the tail
sentinel: the guarded `removeNode` does nothing, the map erase targets the
sentinel's indeterminate key (modelled as absent) and the sentinel's
default frequency 1 is subtracted. -/
def kickOut (s : LfuCache K V) : LfuCache K V :=
  let bs0 := bucketEnsure s.buckets s.minFreq
  match aFind bs0 s.minFreq with
  | some (k :: _) =>
      (match aFind s.nodeMap k with
       | some nd =>
           decreaseFreqNum
             { s with buckets := removeKeyFromBucket bs0 nd.freq k,
                      nodeMap := aErase s.nodeMap k } nd.freq
       | none =>
           decreaseFreqNum { s with buckets := removeKeyFromBucket bs0 s.minFreq k } 0)
  | _ => decreaseFreqNum { s with buckets := bs0 } 1

/-- `getInternal(node, value)`: copy the value out, move the node to the
back of the next-frequency bucket, advance `minFreq_` when its bucket
emptied, then `addFreqNum`. -/
def getInternal (s : LfuCache K V) (k : K) (nd : LfuNode V) : V × LfuCache K V :=
  let bs1 := removeKeyFromBucket s.buckets nd.freq k
  let f1 := nd.freq + 1
  let m1 := aSet s.nodeMap k ⟨f1, nd.value⟩
  let bs2 := addKeyToBucket bs1 f1 k
  let s1 : LfuCache K V := { s with nodeMap := m1, buckets := bs2 }
  let s2 := if f1 = s.minFreq + 1 ∧ bucketIsEmpty bs2 s.minFreq then
      { s1 with minFreq := s.minFreq + 1 }
    else s1
  (nd.value, s2.addFreqNum)

/-- Insert a fresh node with frequency 1 into the map and the
frequency-1 bucket (the common insertion step of `putInternal`). -/
def putFresh (s : LfuCache K V) (k : K) (v : V) : LfuCache K V :=
  { s with nodeMap := aSet s.nodeMap k ⟨1, v⟩,
           buckets := addKeyToBucket s.buckets 1 k }

/-- The map/bucket/minFreq part of `getInternal` before the counter bump:
overwrite the node with the incremented frequency and move its key from the
old bucket to the back of the new one. -/
def promote (s : LfuCache K V) (k : K) (nd : LfuNode V) : LfuCache K V :=
  { s with nodeMap := aSet s.nodeMap k ⟨nd.freq + 1, nd.value⟩,
           buckets := addKeyToBucket (removeKeyFromBucket s.buckets nd.freq k) (nd.freq + 1) k }

/-- `putInternal(key, value)`: evict when `nodeMap_.size() >= capacity_`,
insert the new node (frequency 1) into map and bucket 1, `addFreqNum`, and
set `minFreq_ = min(minFreq_, 1)`. -/
def putInternal (s : LfuCache K V) (k : K) (v : V) : LfuCache K V :=
  let s1 := if cppSizeGeCap s.nodeMap.length s.capacity then s.kickOut else s
  let s2 : LfuCache K V :=
    { s1 with nodeMap := aSet s1.nodeMap k ⟨1, v⟩,
              buckets := addKeyToBucket s1.buckets 1 k }
  let s3 := s2.addFreqNum
  { s3 with minFreq := min s3.minFreq 1 }

/-- `put(key, value)`.  The `capacity_ == 0` guard and the value overwrite
follow the source; the subsequent promotion call (`getInternal`) and the
absent-key `putInternal` call are Modelled from the spec ("If present:
overwrite value, then same promotion as on get.  Else ... create entry
with freq=1 ..."), those statements being elided in the source text. -/
def put (s : LfuCache K V) (k : K) (v : V) : LfuCache K V :=
  if s.capacity = 0 then s
  else
    match aFind s.nodeMap k with
    | some nd =>
        let nd1 : LfuNode V := ⟨nd.freq, v⟩
        (({ s with nodeMap := aSet s.nodeMap k nd1 } : LfuCache K V).getInternal k nd1).2
    | none => s.putInternal k v

/-- `get(key, value&) -> bool`.  The miss branch follows the source; the hit
branch's `getInternal` call is Modelled from the spec ("if present, copy
current value to the out parameter, update position/frequency, return
true"), the statement being elided in the source text. -/
def getOut (s : LfuCache K V) (k : K) (out : V) : Bool × V × LfuCache K V :=
  match aFind s.nodeMap k with
  | some nd =>
      let r := s.getInternal k nd
      (true, r.1, r.2)
  | none => (false, out, s)

/-- `Value get(Key)`. -/
def getByValue [Inhabited V] (s : LfuCache K V) (k : K) : V × LfuCache K V :=
  let r := s.getOut k default
  (r.2.1, r.2.2)

/-- `purge()`: clear `nodeMap_` and `freqToFreqList_` (the scalar fields are
not touched by the source). -/
def purge (s : LfuCache K V) : LfuCache K V :=
  { s with nodeMap := [], buckets := [] }

/-- The joint invariant of `nodeMap_` and `freqToFreqList_` that the source
maintains (spec invariant 3 plus the structural facts of the maps):
map keys distinct; bucket indices distinct; every bucket holds distinct
keys of nodes whose frequency is the bucket index; every node has
frequency at least 1 and sits in the bucket of its frequency. -/
def MapBuckets (m : List (K × LfuNode V)) (bs : List (Int × List K)) : Prop :=
  (m.map Prod.fst).Nodup ∧
  (bs.map Prod.fst).Nodup ∧
  (∀ p ∈ bs, p.2.Nodup ∧
    ∀ k ∈ p.2, (aFind m k).map LfuNode.freq = some p.1) ∧
  (∀ q ∈ m, 1 ≤ q.2.freq ∧ q.1 ∈ (aFind bs q.2.freq).getD [])

instance [DecidableEq V] (m : List (K × LfuNode V)) (bs : List (Int × List K)) :
    Decidable (MapBuckets m bs) := by
  unfold MapBuckets; infer_instance

/-- Well-formedness of an `LfuCache` state: the map/bucket invariant plus
the `minFreq_` facts: `minFreq` is at least 1, bounds every stored
frequency from below, and (the eviction invariant) its bucket is non-empty
whenever the cache is. -/
def WF (s : LfuCache K V) : Prop :=
  MapBuckets s.nodeMap s.buckets ∧
  1 ≤ s.minFreq ∧
  (∀ q ∈ s.nodeMap, s.minFreq ≤ q.2.freq) ∧
  (s.nodeMap ≠ [] → (aFind s.buckets s.minFreq).getD [] ≠ [])

instance [DecidableEq V] (s : LfuCache K V) : Decidable s.WF := by
  unfold WF; infer_instance

/-- All stored frequencies are below `INT8_MAX` (the regime in which
`updateMinFreq`'s sentinel logic is correct). -/
def FreqsBounded (s : LfuCache K V) : Prop :=
  ∀ q ∈ s.nodeMap, q.2.freq < INT8MAX

instance (s : LfuCache K V) : Decidable s.FreqsBounded := by
  unfold FreqsBounded; infer_instance

end LfuCache

/-- Operations of the `LfuCache` public interface (`put` and the two `get`
overloads; the state effect of both overloads is the same). -/
inductive LfuOp (K V : Type) where
  | put (k : K) (v : V)
  | get (k : K)

/-- One public operation. -/
def LfuCache.step {K V : Type} [DecidableEq K] [Inhabited V]
    (s : LfuCache K V) : LfuOp K V → LfuCache K V
  | .put k v => s.put k v
  | .get k => (s.getByValue k).2

/-- A sequence of public operations. -/
def LfuCache.run {K V : Type} [DecidableEq K] [Inhabited V]
    (s : LfuCache K V) (ops : List (LfuOp K V)) : LfuCache K V :=
  ops.foldl LfuCache.step s

/-! ## ArcCache (src/ArcCache/ArcCache.h with its two parts)

`ArcCacheNode.h` is not in the sources; `ArcNode` is Modelled from the spec
(an entry with key, value and an access count starting at 1, plus list
links).  Ghost lists hold evicted nodes keyed for membership tests only;
they are modelled as key lists (front = oldest). -/

/-- `ArcNode`: Modelled from the spec (Entry: key, value, access counter
initialised to 1). -/
structure ArcNode (K V : Type) where
  key : K
  value : V
  accessCount : Nat
deriving Repr, DecidableEq

/-- Sorted-map insertion of a fresh key (for `std::map<size_t, ...>`
`freqMap_`); only called when the key is absent. -/
def sInsert {K : Type} (bs : List (Nat × List K)) (f : Nat) (l0 : List K) :
    List (Nat × List K) :=
  match bs with
  | [] => [(f, l0)]
  | p :: t => if f < p.1 then (f, l0) :: p :: t else p :: sInsert t f l0

/-- `freqMap_[f].push_back(node)` preceded by the create-if-absent check. -/
def sAddBack {K : Type} [DecidableEq K] (bs : List (Nat × List K)) (f : Nat) (k : K) :
    List (Nat × List K) :=
  match aFind bs f with
  | some l => aSet bs f (l ++ [k])
  | none => sInsert bs f [k]

/-- `freqMap_[f]` used as an lvalue: create the (empty) entry when absent. -/
def sEnsure {K : Type} [DecidableEq K] (bs : List (Nat × List K)) (f : Nat) :
    List (Nat × List K) :=
  match aFind bs f with
  | some _ => bs
  | none => sInsert bs f []

/-- `ArcLfuPart` (ArcCache/ArcLfuPart.h): LFU half of ARC.  `freqMap` is the
ordered `std::map` from frequency to the keys of its node list. -/
structure ArcLfuPart (K V : Type) where
  capacity : Nat
  ghostCapacity : Nat
  transformThreshold : Nat
  minFreq : Nat
  mainCache : List (ArcNode K V)
  ghost : List K
  freqMap : List (Nat × List K)
deriving Repr, DecidableEq

namespace ArcLfuPart

variable {K V : Type} [DecidableEq K]

/-- Constructor: ghost capacity equals the initial capacity, `minFreq_ = 0`. -/
def initPart (capacity transformThreshold : Nat) : ArcLfuPart K V :=
  ⟨capacity, capacity, transformThreshold, 0, [], [], []⟩

/-- `mainCache_.find(key)`. -/
def findMain (s : ArcLfuPart K V) (k : K) : Option (ArcNode K V) :=
  s.mainCache.find? (fun n => decide (n.key = k))

/-- `removeOldestGhost`: unlink the node after the ghost head (no-op when
the ghost list is empty). -/
def removeOldestGhost (s : ArcLfuPart K V) : ArcLfuPart K V :=
  { s with ghost := s.ghost.tail }

/-- `evictLeastFrequency`: pop the front of the `minFreq_` list, advance
`minFreq_` when that list empties (and the map is non-empty), move the
victim to the ghost (evicting the oldest ghost when full), and erase the
victim from the main cache. -/
def evictLeastFrequency (s : ArcLfuPart K V) : ArcLfuPart K V :=
  if s.freqMap.isEmpty then s
  else
    let bs0 := sEnsure s.freqMap s.minFreq
    match aFind bs0 s.minFreq with
    | some [] => { s with freqMap := aErase bs0 s.minFreq }
    | some (k :: rest) =>
        let bs1 := aSet bs0 s.minFreq rest
        let bs2 := if rest.isEmpty then aErase bs1 s.minFreq else bs1
        let mf := if rest.isEmpty then
            (match bs2 with
             | [] => s.minFreq
             | p :: _ => p.1)
          else s.minFreq
        let g0 := if s.ghostCapacity ≤ s.ghost.length then s.ghost.tail else s.ghost
        { s with freqMap := bs2, minFreq := mf,
                 ghost := g0 ++ [k],
                 mainCache := s.mainCache.eraseP (fun n => decide (n.key = k)) }
    | none => s

/-- `updateNodeFrequency`: bump the node's access count and move it from
the old frequency list (erasing an emptied list and advancing `minFreq_`)
to the back of the new one. -/
def updateNodeFrequency (s : ArcLfuPart K V) (nd : ArcNode K V) : ArcLfuPart K V :=
  let oldFreq := nd.accessCount
  let newFreq := oldFreq + 1
  let m1 := s.mainCache.map (fun (n : ArcNode K V) => if n.key = nd.key then { n with accessCount := newFreq } else n)
  let bs0 := sEnsure s.freqMap oldFreq
  let ol := (aFind bs0 oldFreq).getD []
  let ol1 := ol.eraseP (fun x => decide (x = nd.key))
  let emptied := ol1.isEmpty
  let bs1 := if emptied then aErase (aSet bs0 oldFreq ol1) oldFreq else aSet bs0 oldFreq ol1
  let mf := if emptied ∧ s.minFreq = oldFreq then newFreq else s.minFreq
  { s with mainCache := m1, freqMap := sAddBack bs1 newFreq nd.key, minFreq := mf }

/-- `addNewNode`: evict when `mainCache_.size() >= capacity_`, insert the
new node (count 1) into the main cache and the back of frequency list 1,
and set `minFreq_ = 1`. -/
def addNewNode (s : ArcLfuPart K V) (k : K) (v : V) : ArcLfuPart K V :=
  let s1 := if s.capacity ≤ s.mainCache.length then s.evictLeastFrequency else s
  { s1 with mainCache := s1.mainCache ++ [⟨k, v, 1⟩],
            freqMap := sAddBack s1.freqMap 1 k,
            minFreq := 1 }

/-- `put(key, value) -> bool`.  The present-key branch overwrites the value
and (Modelled from the spec: the truncated `updateNode...` statement)
updates the node's frequency; both branches return true. -/
def putPart (s : ArcLfuPart K V) (k : K) (v : V) : Bool × ArcLfuPart K V :=
  if s.capacity = 0 then (false, s)
  else
    match s.findMain k with
    | some nd =>
        let nd1 := { nd with value := v }
        let s1 := { s with mainCache := s.mainCache.map (fun (n : ArcNode K V) => if n.key = k then nd1 else n) }
        (true, s1.updateNodeFrequency nd1)
    | none => (true, s.addNewNode k v)

/-- `get(key, value&) -> bool`: on a hit update the node's frequency and
copy the value out. -/
def getPart (s : ArcLfuPart K V) (k : K) (out : V) : Bool × V × ArcLfuPart K V :=
  match s.findMain k with
  | some nd => (true, nd.value, s.updateNodeFrequency nd)
  | none => (false, out, s)

/-- `checkGhost(key)`: unlink and erase on a ghost hit. -/
def checkGhost (s : ArcLfuPart K V) (k : K) : Bool × ArcLfuPart K V :=
  if k ∈ s.ghost then (true, { s with ghost := s.ghost.eraseP (fun x => decide (x = k)) })
  else (false, s)

/-- `increaseCapacity()`. -/
def increaseCapacity (s : ArcLfuPart K V) : ArcLfuPart K V :=
  { s with capacity := s.capacity + 1 }

/-- `decreaseCapacity() -> bool`: refuse at capacity 0; evict one entry
first when the part is full. -/
def decreaseCapacity (s : ArcLfuPart K V) : Bool × ArcLfuPart K V :=
  if s.capacity = 0 then (false, s)
  else
    let s1 := if s.mainCache.length = s.capacity then s.evictLeastFrequency else s
    (true, { s1 with capacity := s.capacity - 1 })

end ArcLfuPart

/-- `ArcLruPart`: Modelled from the spec (section 4.4; the header
`ArcCache/ArcLruPart.h` is not among the sources).  A main LRU segment
(head = LRU end) with a bounded ghost list of victim keys, a mutable
capacity and the promotion threshold. -/
structure ArcLruPart (K V : Type) where
  capacity : Nat
  ghostCapacity : Nat
  transformThreshold : Nat
  main : List (ArcNode K V)
  ghost : List K
deriving Repr, DecidableEq

namespace ArcLruPart

variable {K V : Type} [DecidableEq K]

/-- Modelled from the spec: ghost capacity equals the initial capacity. -/
def initPart (capacity transformThreshold : Nat) : ArcLruPart K V :=
  ⟨capacity, capacity, transformThreshold, [], []⟩

/-- Main-segment lookup. -/
def findMain (s : ArcLruPart K V) (k : K) : Option (ArcNode K V) :=
  s.main.find? (fun n => decide (n.key = k))

/-- Modelled from the spec: "evict LRU: remove from main map/list, append
key to ghost (removing ghost's oldest if full)". -/
def evictLru (s : ArcLruPart K V) : ArcLruPart K V :=
  match s.main with
  | [] => s
  | e :: rest =>
      let g0 := if s.ghostCapacity ≤ s.ghost.length then s.ghost.tail else s.ghost
      { s with main := rest, ghost := g0 ++ [e.key] }

/-- Modelled from the spec: `put(k,v) -> bool (promoted?)`; no-op at
capacity 0 (section 4.1), "if present in main, overwrite and move to MRU
end; return promoted iff the entry's access count has reached
transformThreshold.  Else insert new; if at capacity, evict LRU" — the
return is "true iff the entry now qualifies for promotion (access-count
at least threshold)" (section 9, note 5). -/
def putPart (s : ArcLruPart K V) (k : K) (v : V) : Bool × ArcLruPart K V :=
  if s.capacity = 0 then (false, s)
  else
    match s.findMain k with
    | some nd =>
        let nd1 := { nd with value := v }
        (s.transformThreshold ≤ nd1.accessCount,
         { s with main := s.main.eraseP (fun n => decide (n.key = k)) ++ [nd1] })
    | none =>
        let s1 := if s.capacity ≤ s.main.length then s.evictLru else s
        (s.transformThreshold ≤ 1, { s1 with main := s1.main ++ [⟨k, v, 1⟩] })

/-- Modelled from the spec: `get(k, &v, &shouldTransform) -> bool`; on a
main hit move to MRU, increment the access count and report whether it
reached the threshold. -/
def getPart (s : ArcLruPart K V) (k : K) (out : V) : Bool × V × Bool × ArcLruPart K V :=
  match s.findMain k with
  | some nd =>
      let nd1 := { nd with accessCount := nd.accessCount + 1 }
      (true, nd1.value, s.transformThreshold ≤ nd1.accessCount,
       { s with main := s.main.eraseP (fun n => decide (n.key = k)) ++ [nd1] })
  | none => (false, out, false, s)

/-- Modelled from the spec: `checkGhost(k)`: unlink and erase on a hit. -/
def checkGhost (s : ArcLruPart K V) (k : K) : Bool × ArcLruPart K V :=
  if k ∈ s.ghost then (true, { s with ghost := s.ghost.eraseP (fun x => decide (x = k)) })
  else (false, s)

/-- Modelled from the spec: `increaseCapacity()`. -/
def increaseCapacity (s : ArcLruPart K V) : ArcLruPart K V :=
  { s with capacity := s.capacity + 1 }

/-- Modelled from the spec: `decreaseCapacity() -> bool`: "decreasing must
first evict one entry if the part is currently full; returns false when
capacity is already 0". -/
def decreaseCapacity (s : ArcLruPart K V) : Bool × ArcLruPart K V :=
  if s.capacity = 0 then (false, s)
  else
    let s1 := if s.main.length = s.capacity then s.evictLru else s
    (true, { s1 with capacity := s.capacity - 1 })

end ArcLruPart

/-- `ArcCache` (src/ArcCache/ArcCache.h): both halves are sized at the full
`capacity` (total budget 2 x capacity, as the source constructs it). -/
structure ArcCache (K V : Type) where
  capacity : Nat
  transformThreshold : Nat
  lruPart : ArcLruPart K V
  lfuPart : ArcLfuPart K V
deriving Repr, DecidableEq

namespace ArcCache

variable {K V : Type} [DecidableEq K]

/-- Constructor `ArcCache(capacity = 10, transformThreshold = 2)`. -/
def init (capacity transformThreshold : Nat) : ArcCache K V :=
  ⟨capacity, transformThreshold,
   ArcLruPart.initPart capacity transformThreshold,
   ArcLfuPart.initPart capacity transformThreshold⟩

/-- `checkGhostCaches(key)`: on an LRU-ghost hit shift one capacity unit
from the LFU half (when its `decreaseCapacity` succeeds); else, on an
LFU-ghost hit, shift one unit from the LRU half; report whether any ghost
hit occurred. -/
def checkGhostCaches (s : ArcCache K V) (k : K) : Bool × ArcCache K V :=
  let (hitL, lru1) := s.lruPart.checkGhost k
  if hitL then
    let (ok, lfu1) := s.lfuPart.decreaseCapacity
    let lru2 := if ok then lru1.increaseCapacity else lru1
    (true, { s with lruPart := lru2, lfuPart := lfu1 })
  else
    let (hitF, lfu1) := s.lfuPart.checkGhost k
    if hitF then
      let (ok, lru2) := lru1.decreaseCapacity
      let lfu2 := if ok then lfu1.increaseCapacity else lfu1
      (true, { s with lruPart := lru2, lfuPart := lfu2 })
    else (false, s)

/-- `put(key, value)`: after the ghost check, a ghost hit routes the put to
the LRU half alone; otherwise put into the LRU half and mirror into the
LFU half when that put reports promotion. -/
def put (s : ArcCache K V) (k : K) (v : V) : ArcCache K V :=
  let r := s.checkGhostCaches k
  let s1 := r.2
  if r.1 then { s1 with lruPart := (s1.lruPart.putPart k v).2 }
  else
    let (promoted, lru1) := s1.lruPart.putPart k v
    let s2 := { s1 with lruPart := lru1 }
    if promoted then { s2 with lfuPart := (s2.lfuPart.putPart k v).2 } else s2

/-- `get(key, value&) -> bool`: ghost check (side effect only), then the
LRU half (mirroring into the LFU half when `shouldTransform`), then the
LFU half. -/
def getOut (s : ArcCache K V) (k : K) (out : V) : Bool × V × ArcCache K V :=
  let s1 := (s.checkGhostCaches k).2
  let r := s1.lruPart.getPart k out
  if r.1 then
    let s2 := { s1 with lruPart := r.2.2.2 }
    (true, r.2.1,
     if r.2.2.1 then { s2 with lfuPart := (s2.lfuPart.putPart k r.2.1).2 } else s2)
  else
    let r2 := s1.lfuPart.getPart k out
    (r2.1, r2.2.1, { s1 with lfuPart := r2.2.2 })

/-- `Value get(Key)`. -/
def getByValue [Inhabited V] (s : ArcCache K V) (k : K) : V × ArcCache K V :=
  let r := s.getOut k default
  (r.2.1, r.2.2)

end ArcCache

/-! ## LruKCache (LruCache.h, second half) -/

/-- `LruKCache`: the inherited main `LruCache<Key, Value>` plus the history
`LruCache<Key, size_t>` of observation counts and the admission threshold
`k_`.  The source instantiates the presence probe as a comparison with the
empty string, so the value type is `String`. -/
structure LruKCache (K : Type) where
  kThreshold : Int
  mainCache : LruCache K String
  historyList : LruCache K Nat
deriving Repr, DecidableEq

namespace LruKCache

variable {K : Type} [DecidableEq K]

/-- Constructor `LruKCache(capacity, historyCapacity, k)`. -/
def init (capacity historyCapacity k : Int) : LruKCache K :=
  ⟨k, LruCache.init capacity, LruCache.init historyCapacity⟩

/-- `put(key, value)`: probe the main cache by value comparison with `""`
(overwriting on a "hit"), then unconditionally bump the key's history
count, and admit to main (dropping the history entry) when the bumped
count reaches `k_`. -/
def put (s : LruKCache K) (k : K) (v : String) : LruKCache K :=
  let p := s.mainCache.getByValue k
  let main1 := if p.1 ≠ "" then p.2.put k v else p.2
  let h := s.historyList.getByValue k
  let h1 := h.1 + 1
  let hist1 := h.2.put k h1
  if cppSizeGeCap h1 s.kThreshold then
    { s with mainCache := main1.put k v, historyList := hist1.remove k }
  else
    { s with mainCache := main1, historyList := hist1 }

/-- `Value get(Key)`: bump the key's history count, then read through to the
main cache. -/
def getByValue (s : LruKCache K) (k : K) : String × LruKCache K :=
  let h := s.historyList.getByValue k
  let hist1 := h.2.put k (h.1 + 1)
  let r := s.mainCache.getByValue k
  (r.1, { s with mainCache := r.2, historyList := hist1 })

end LruKCache

/-! ## Concrete scenario states used by the analysis -/

/-- ARC scenario: capacity 1, threshold 2.  The first five operations place
key 1 in the LFU ghost while keeping it out of the LRU ghost. -/
def arcScenario : ArcCache Nat Nat :=
  let s0 : ArcCache Nat Nat := ArcCache.init 1 2
  let s1 := s0.put 1 11
  let s2 := (s1.getOut 1 0).2.2
  let s3 := s2.put 2 22
  let s4 := (s3.getOut 2 0).2.2
  s4.put 3 33

/-- The state after the final `put(1, 44)` of the ARC scenario. -/
def arcScenarioPut : ArcCache Nat Nat :=
  arcScenario.put 1 44

/-- LFU aging scenario: capacity 1, `maxAvgNum = 251`; one insert followed
by 251 hits on the same key. -/
def lfuAgingScenario : LfuCache Nat Nat :=
  LfuCache.run (LfuCache.init 1 251) (LfuOp.put 0 5 :: List.replicate 251 (LfuOp.get 0))

/-- The state of the aging scenario after the put and `n - 1` gets (before
any aging): the single key 0 sits at frequency `n` in bucket `n`, all
lower buckets having been created and emptied on the way up. -/
def agingMid (n : Nat) : LfuCache Nat Nat :=
  ⟨1, (n : Int), 251, (n : Int), (n : Int), [(0, ⟨(n : Int), 5⟩)],
   (List.range (n - 1)).map (fun i => (((i : Int) + 1), ([] : List Nat))) ++ [((n : Int), [0])]⟩

/-- The final state of the aging scenario: the 252nd access pushed
`curAvgNum` to 252 > 251, aging halved the frequency to 127 (so key 0 sits
in bucket 127 of the 252 accumulated buckets) and `updateMinFreq` fell
back to 1. -/
def agingFinal : LfuCache Nat Nat :=
  ⟨1, 1, 251, 252, 252, [(0, ⟨127, 5⟩)],
   (List.range 252).map (fun i => (((i : Int) + 1), if i + 1 = 127 then [0] else ([] : List Nat)))⟩

/-- The frequencies of the non-empty buckets of an `LfuCache` state (the
set `updateMinFreq` is specified to minimise over). -/
def LfuCache.nonemptyBucketFreqs {K V : Type} (s : LfuCache K V) : List Int :=
  (s.buckets.filter (fun p => ¬ p.2.isEmpty)).map Prod.fst

/-- LFU dead-cache scenario: capacity -1. -/
def lfuNegScenario : LfuCache Nat Nat :=
  (LfuCache.init (-1) 10 : LfuCache Nat Nat).put 1 7

/-- LRU negative-capacity scenario. -/
def lruNegScenario : LruCache Nat Nat :=
  (LruCache.init (-1) : LruCache Nat Nat).put 1 7

/-- LRU-K scenario: main capacity 1, history capacity 4, K = 2.  Two puts
admit key 5 into the main cache and empty its history record. -/
def lrukScenario : LruKCache Nat :=
  ((LruKCache.init 1 4 2 : LruKCache Nat).put 5 "a").put 5 "a"

/-- The LRU-K scenario after one more `put` on the key already in main. -/
def lrukScenarioPut : LruKCache Nat :=
  lrukScenario.put 5 "b"

/-- LFU purge scenario: one insert, then `purge()`. -/
def lfuPurgeScenario : LfuCache Nat Nat :=
  ((LfuCache.init 2 10 : LfuCache Nat Nat).put 1 7).purge

/-! ## Association-list and list lemmas -/

section AssocLemmas

variable {A B : Type} [DecidableEq A]

theorem aFind_nil {a : A} : aFind ([] : List (A × B)) a = none := rfl

theorem aFind_cons {p : A × B} {t : List (A × B)} {a : A} :
    aFind (p :: t) a = if p.1 = a then some p.2 else aFind t a := by
  by_cases hp : p.1 = a <;> simp [aFind, List.find?_cons, hp]

theorem aSet_cons {p : A × B} {t : List (A × B)} {a : A} {b : B} :
    aSet (p :: t) a b = if p.1 = a then (a, b) :: t else p :: aSet t a b := rfl

theorem aErase_cons {p : A × B} {t : List (A × B)} {a : A} :
    aErase (p :: t) a = if p.1 = a then t else p :: aErase t a := by
  by_cases hp : p.1 = a
  · simp [aErase, List.eraseP_cons_of_pos, hp]
  · simp [aErase, List.eraseP_cons_of_neg, hp]

theorem aFind_eq_none {l : List (A × B)} {a : A} :
    aFind l a = none ↔ ∀ p ∈ l, p.1 ≠ a := by
  simp [aFind, List.find?_eq_none]

theorem aFind_mem {l : List (A × B)} {a : A} {b : B} (h : aFind l a = some b) :
    (a, b) ∈ l := by
  induction l with
  | nil => simp [aFind_nil] at h
  | cons p t ih =>
      rw [aFind_cons] at h
      by_cases hp : p.1 = a
      · rw [if_pos hp] at h
        rcases p with ⟨pa, pb⟩
        obtain rfl : pb = b := by simpa using h
        obtain rfl : pa = a := hp
        exact List.mem_cons_self _ _
      · rw [if_neg hp] at h
        exact List.mem_cons.2 (Or.inr (ih h))

theorem aFind_isSome_of_mem_keys {l : List (A × B)} {a : A}
    (h : a ∈ l.map Prod.fst) : ∃ b, aFind l a = some b := by
  induction l with
  | nil => simp at h
  | cons p t ih =>
      by_cases hp : p.1 = a
      · exact ⟨p.2, by rw [aFind_cons, if_pos hp]⟩
      · have : a ∈ t.map Prod.fst := by
          rcases List.mem_map.1 h with ⟨q, hq, hqa⟩
          rcases List.mem_cons.1 hq with rfl | hqt
          · exact absurd hqa hp
          · exact List.mem_map.2 ⟨q, hqt, hqa⟩
        rcases ih this with ⟨b, hb⟩
        exact ⟨b, by rw [aFind_cons, if_neg hp]; exact hb⟩

theorem mem_keys_of_aFind {l : List (A × B)} {a : A} {b : B}
    (h : aFind l a = some b) : a ∈ l.map Prod.fst :=
  List.mem_map.2 ⟨(a, b), aFind_mem h, rfl⟩

theorem aFind_aSet_self {l : List (A × B)} {a : A} {b : B} :
    aFind (aSet l a b) a = some b := by
  induction l with
  | nil => simp [aSet, aFind_cons]
  | cons p t ih =>
      rw [aSet_cons]
      by_cases hp : p.1 = a
      · rw [if_pos hp, aFind_cons]; simp
      · rw [if_neg hp, aFind_cons, if_neg hp]; exact ih

theorem aFind_aSet_ne {l : List (A × B)} {a a' : A} {b : B} (h : a' ≠ a) :
    aFind (aSet l a b) a' = aFind l a' := by
  have hn : ¬ (a = a') := fun hh => h hh.symm
  induction l with
  | nil => simp [aSet, aFind_cons, aFind_nil, hn]
  | cons p t ih =>
      rw [aSet_cons]
      by_cases hp : p.1 = a
      · have hpk : ¬ (p.1 = a') := by rw [hp]; exact hn
        rw [if_pos hp, aFind_cons, aFind_cons, if_neg hn, if_neg hpk]
      · rw [if_neg hp, aFind_cons, aFind_cons]
        by_cases hpk : p.1 = a'
        · rw [if_pos hpk, if_pos hpk]
        · rw [if_neg hpk, if_neg hpk]; exact ih

theorem keys_aSet_of_mem {l : List (A × B)} {a : A} {b : B}
    (h : a ∈ l.map Prod.fst) : (aSet l a b).map Prod.fst = l.map Prod.fst := by
  induction l with
  | nil => simp at h
  | cons p t ih =>
      rw [aSet_cons]
      by_cases hp : p.1 = a
      · rw [if_pos hp]; simp [hp]
      · have : a ∈ t.map Prod.fst := by
          rcases List.mem_map.1 h with ⟨q, hq, hqa⟩
          rcases List.mem_cons.1 hq with rfl | hqt
          · exact absurd hqa hp
          · exact List.mem_map.2 ⟨q, hqt, hqa⟩
        rw [if_neg hp]; simp [ih this]

theorem keys_aSet_of_not_mem {l : List (A × B)} {a : A} {b : B}
    (h : a ∉ l.map Prod.fst) : (aSet l a b).map Prod.fst = l.map Prod.fst ++ [a] := by
  induction l with
  | nil => simp [aSet]
  | cons p t ih =>
      have hp : p.1 ≠ a := by
        intro hh; exact h (by simp [hh])
      have ht : a ∉ t.map Prod.fst := fun hh => h (by simp [hh])
      rw [aSet_cons, if_neg hp]; simp [ih ht]

theorem mem_aSet {l : List (A × B)} {a : A} {b : B} {q : A × B}
    (h : q ∈ aSet l a b) : q = (a, b) ∨ q ∈ l := by
  induction l with
  | nil => simpa [aSet] using h
  | cons p t ih =>
      rw [aSet_cons] at h
      by_cases hp : p.1 = a
      · rw [if_pos hp] at h
        rcases List.mem_cons.1 h with h1 | h1
        · exact Or.inl h1
        · exact Or.inr (List.mem_cons.2 (Or.inr h1))
      · rw [if_neg hp] at h
        rcases List.mem_cons.1 h with h1 | h1
        · exact Or.inr (List.mem_cons.2 (Or.inl h1))
        · rcases ih h1 with h2 | h2
          · exact Or.inl h2
          · exact Or.inr (List.mem_cons.2 (Or.inr h2))

theorem aFind_aErase_self {l : List (A × B)} {a : A}
    (h : (l.map Prod.fst).Nodup) : aFind (aErase l a) a = none := by
  induction l with
  | nil => simp [aErase, aFind_nil]
  | cons p t ih =>
      have h1 : p.1 ∉ t.map Prod.fst := (List.nodup_cons.1 (by simpa using h)).1
      have h2 : (t.map Prod.fst).Nodup := (List.nodup_cons.1 (by simpa using h)).2
      rw [aErase_cons]
      by_cases hp : p.1 = a
      · rw [if_pos hp]
        subst hp
        exact aFind_eq_none.2 fun q hq hqa => h1 (List.mem_map.2 ⟨q, hq, hqa⟩)
      · rw [if_neg hp, aFind_cons, if_neg hp]
        exact ih h2

theorem aFind_aErase_ne {l : List (A × B)} {a a' : A} (h : a' ≠ a) :
    aFind (aErase l a) a' = aFind l a' := by
  induction l with
  | nil => simp [aErase, aFind_nil]
  | cons p t ih =>
      rw [aErase_cons]
      by_cases hp : p.1 = a
      · have hp' : p.1 ≠ a' := by rw [hp]; exact fun hh => h hh.symm
        rw [if_pos hp, aFind_cons, if_neg hp']
      · rw [if_neg hp, aFind_cons, aFind_cons]
        by_cases hp' : p.1 = a'
        · rw [if_pos hp', if_pos hp']
        · rw [if_neg hp', if_neg hp']; exact ih

theorem length_aErase_of_find {l : List (A × B)} {a : A} {b : B}
    (h : aFind l a = some b) : (aErase l a).length + 1 = l.length := by
  have hm : (a, b) ∈ l := aFind_mem h
  have hlen := List.length_eraseP_of_mem hm (p := fun p => decide (p.1 = a)) (by simp)
  have hpos : 0 < l.length := List.length_pos_of_mem hm
  unfold aErase
  omega

theorem keys_aErase_sublist {l : List (A × B)} {a : A} :
    ((aErase l a).map Prod.fst).Sublist (l.map Prod.fst) :=
  (List.eraseP_sublist l).map Prod.fst

theorem mem_of_mem_aErase {l : List (A × B)} {a : A} {q : A × B}
    (h : q ∈ aErase l a) : q ∈ l :=
  (List.eraseP_sublist l).mem h

theorem aFind_append_none {l1 l2 : List (A × B)} {a : A}
    (h : aFind l1 a = none) : aFind (l1 ++ l2) a = aFind l2 a := by
  induction l1 with
  | nil => simp
  | cons p t ih =>
      rw [aFind_cons] at h
      by_cases hp : p.1 = a
      · rw [if_pos hp] at h; exact absurd h (by simp)
      · rw [if_neg hp] at h
        rw [List.cons_append, aFind_cons, if_neg hp]
        exact ih h

theorem aFind_append_some {l1 l2 : List (A × B)} {a : A} {b : B}
    (h : aFind l1 a = some b) : aFind (l1 ++ l2) a = some b := by
  induction l1 with
  | nil => simp [aFind_nil] at h
  | cons p t ih =>
      rw [aFind_cons] at h
      rw [List.cons_append, aFind_cons]
      by_cases hp : p.1 = a
      · rw [if_pos hp] at h; rw [if_pos hp]; exact h
      · rw [if_neg hp] at h; rw [if_neg hp]; exact ih h

theorem keyErase_not_mem {l : List A} {a : A} (h : l.Nodup) :
    a ∉ l.eraseP (fun x => decide (x = a)) := by
  induction l with
  | nil => simp
  | cons x t ih =>
      rcases List.nodup_cons.1 h with ⟨hx, ht⟩
      by_cases hxa : x = a
      · rw [List.eraseP_cons_of_pos (by simp [hxa])]
        subst hxa; exact hx
      · intro hmem
        rw [List.eraseP_cons_of_neg (by simpa using hxa)] at hmem
        rcases List.mem_cons.1 hmem with h1 | h1
        · exact hxa h1.symm
        · exact ih ht h1

theorem mem_keyErase_of_ne {l : List A} {a x : A} (hx : x ≠ a) :
    x ∈ l.eraseP (fun y => decide (y = a)) ↔ x ∈ l :=
  List.mem_eraseP_of_neg (by simpa using hx)

theorem mem_of_mem_keyErase {l : List A} {a x : A}
    (h : x ∈ l.eraseP (fun y => decide (y = a))) : x ∈ l :=
  (List.eraseP_sublist l).mem h

theorem nodup_keyErase {l : List A} {a : A} (h : l.Nodup) :
    (l.eraseP (fun y => decide (y = a))).Nodup :=
  h.sublist (List.eraseP_sublist l)

end AssocLemmas

theorem cppSizeGeCap_of_nonneg {n : Nat} {cap : Int} (h0 : 0 ≤ cap) (h1 : cap < 2 ^ 64) :
    cppSizeGeCap n cap = decide (cap ≤ (n : Int)) := by
  unfold cppSizeGeCap
  rw [show cap.emod (2 ^ 64) = cap % (2 ^ 64) from rfl,
    Int.emod_eq_of_lt h0 (by norm_num at h1 ⊢; exact h1)]
  simp [Int.toNat_le]

section AssocLemmas2

variable {A B : Type} [DecidableEq A]

theorem aFind_of_mem_nodup {l : List (A × B)} (h : (l.map Prod.fst).Nodup)
    {p : A × B} (hp : p ∈ l) : aFind l p.1 = some p.2 := by
  induction l with
  | nil => simp at hp
  | cons q t ih =>
      have h2 : (q.1 :: t.map Prod.fst).Nodup := by simpa using h
      rcases List.nodup_cons.1 h2 with ⟨hq, ht⟩
      rcases List.mem_cons.1 hp with rfl | hpt
      · rw [aFind_cons, if_pos rfl]
      · have hne : q.1 ≠ p.1 := by
          intro he
          exact hq (by rw [he]; exact List.mem_map.2 ⟨p, hpt, rfl⟩)
        rw [aFind_cons, if_neg hne]
        exact ih ht hpt

theorem mem_aSet_nodup {l : List (A × B)} (h : (l.map Prod.fst).Nodup)
    {a : A} {b : B} {q : A × B} (hq : q ∈ aSet l a b) :
    q = (a, b) ∨ (q ∈ l ∧ q.1 ≠ a) := by
  induction l with
  | nil => exact Or.inl (by simpa [aSet] using hq)
  | cons p t ih =>
      have h2 : (p.1 :: t.map Prod.fst).Nodup := by simpa using h
      rcases List.nodup_cons.1 h2 with ⟨hp1, ht⟩
      rw [aSet_cons] at hq
      by_cases hp : p.1 = a
      · rw [if_pos hp] at hq
        rcases List.mem_cons.1 hq with rfl | hqt
        · exact Or.inl rfl
        · refine Or.inr ⟨List.mem_cons.2 (Or.inr hqt), ?_⟩
          intro hqa
          exact hp1 (by rw [hp, ← hqa]; exact List.mem_map.2 ⟨q, hqt, rfl⟩)
      · rw [if_neg hp] at hq
        rcases List.mem_cons.1 hq with rfl | hqt
        · exact Or.inr ⟨List.mem_cons.2 (Or.inl rfl), hp⟩
        · rcases ih ht hqt with h1 | ⟨h2, h3⟩
          · exact Or.inl h1
          · exact Or.inr ⟨List.mem_cons.2 (Or.inr h2), h3⟩

theorem mem_aErase_nodup {l : List (A × B)} (h : (l.map Prod.fst).Nodup)
    {a : A} {q : A × B} (hq : q ∈ aErase l a) : q ∈ l ∧ q.1 ≠ a := by
  refine ⟨mem_of_mem_aErase hq, fun he => ?_⟩
  have hn := aFind_aErase_self (l := l) (a := a) h
  rcases aFind_isSome_of_mem_keys (List.mem_map.2 ⟨q, hq, he⟩) with ⟨b, hb⟩
  rw [hn] at hb
  exact Option.noConfusion hb

end AssocLemmas2

/-! ## Bucket-operation lemmas -/

namespace LfuCache

variable {K V : Type} [DecidableEq K]

theorem removeKeyFromBucket_keys {bs : List (Int × List K)} {f : Int} {k : K} :
    (removeKeyFromBucket bs f k).map Prod.fst = bs.map Prod.fst := by
  unfold removeKeyFromBucket
  rcases h : aFind bs f with _ | l
  · rfl
  · exact keys_aSet_of_mem (mem_keys_of_aFind h)

theorem aFind_removeKeyFromBucket_self {bs : List (Int × List K)} {f : Int} {k : K} :
    aFind (removeKeyFromBucket bs f k) f =
      (aFind bs f).map (fun l => l.eraseP (fun x => decide (x = k))) := by
  unfold removeKeyFromBucket
  rcases h : aFind bs f with _ | l
  · rw [h]; rfl
  · rw [aFind_aSet_self]; rfl

theorem aFind_removeKeyFromBucket_ne {bs : List (Int × List K)} {f f1 : Int} {k : K}
    (h : f1 ≠ f) : aFind (removeKeyFromBucket bs f k) f1 = aFind bs f1 := by
  unfold removeKeyFromBucket
  rcases hf : aFind bs f with _ | l
  · rfl
  · exact aFind_aSet_ne h

theorem aFind_addKeyToBucket_self {bs : List (Int × List K)} {f : Int} {k : K} :
    aFind (addKeyToBucket bs f k) f = some ((aFind bs f).getD [] ++ [k]) := by
  unfold addKeyToBucket
  rcases hf : aFind bs f with _ | l
  · rw [aFind_append_none hf, aFind_cons, if_pos rfl]
    rfl
  · rw [aFind_aSet_self]
    rfl

theorem aFind_addKeyToBucket_ne {bs : List (Int × List K)} {f f1 : Int} {k : K}
    (h : f1 ≠ f) : aFind (addKeyToBucket bs f k) f1 = aFind bs f1 := by
  unfold addKeyToBucket
  rcases hf : aFind bs f with _ | l
  · rcases hf1 : aFind bs f1 with _ | l1
    · rw [aFind_append_none hf1, aFind_cons, if_neg (fun he => h he.symm)]
      rfl
    · rw [aFind_append_some hf1]
  · exact aFind_aSet_ne h

theorem addKeyToBucket_keys_of_find {bs : List (Int × List K)} {f : Int} {k : K} {l : List K}
    (h : aFind bs f = some l) :
    (addKeyToBucket bs f k).map Prod.fst = bs.map Prod.fst := by
  unfold addKeyToBucket
  rw [h]
  exact keys_aSet_of_mem (mem_keys_of_aFind h)

theorem addKeyToBucket_keys_of_none {bs : List (Int × List K)} {f : Int} {k : K}
    (h : aFind bs f = none) :
    (addKeyToBucket bs f k).map Prod.fst = bs.map Prod.fst ++ [f] := by
  unfold addKeyToBucket
  rw [h]
  simp

theorem addKeyToBucket_keys_nodup {bs : List (Int × List K)} {f : Int} {k : K}
    (h : (bs.map Prod.fst).Nodup) : ((addKeyToBucket bs f k).map Prod.fst).Nodup := by
  rcases hf : aFind bs f with _ | l
  · rw [addKeyToBucket_keys_of_none hf]
    have hnm : f ∉ bs.map Prod.fst := by
      intro hmem
      rcases aFind_isSome_of_mem_keys hmem with ⟨b, hb⟩
      rw [hf] at hb; exact Option.noConfusion hb
    simp [List.nodup_append, h, hnm]
  · rw [addKeyToBucket_keys_of_find hf]
    exact h

/-- The central structural step: moving the node of key `k` (current node
`nd`) from the bucket of its frequency to the back of the bucket `f1`
(with frequency at least 1) while updating its map entry preserves the
map/bucket invariant.  This is the common shape of `getInternal`'s
promotion and of one aging step. -/
theorem MapBuckets.move {m : List (K × LfuNode V)} {bs : List (Int × List K)}
    (h : MapBuckets m bs) {k : K} {nd : LfuNode V} (hk : aFind m k = some nd)
    {f1 : Int} (hf : 1 ≤ f1) (v1 : V) :
    MapBuckets (aSet m k ⟨f1, v1⟩)
      (addKeyToBucket (removeKeyFromBucket bs nd.freq k) f1 k) := by
  obtain ⟨hm, hbs, hbuck, hnode⟩ := h
  have hkmem : k ∈ m.map Prod.fst := mem_keys_of_aFind hk
  -- the original bucket of k
  have hknode := hnode (k, nd) (aFind_mem hk)
  have hl0 : ∃ l0, aFind bs nd.freq = some l0 ∧ k ∈ l0 := by
    rcases hfind : aFind bs nd.freq with _ | l0
    · rw [hfind] at hknode; simp at hknode
    · rw [hfind] at hknode; exact ⟨l0, rfl, by simpa using hknode.2⟩
  obtain ⟨l0, hl0f, hl0k⟩ := hl0
  have hl0mem : (nd.freq, l0) ∈ bs := aFind_mem hl0f
  have hl0nodup : l0.Nodup := (hbuck _ hl0mem).1
  -- keys of the new maps
  have hmidkeys : (removeKeyFromBucket bs nd.freq k).map Prod.fst = bs.map Prod.fst :=
    removeKeyFromBucket_keys
  have hmidnodup : ((removeKeyFromBucket bs nd.freq k).map Prod.fst).Nodup := by
    rw [hmidkeys]; exact hbs
  have hbs' : ((addKeyToBucket (removeKeyFromBucket bs nd.freq k) f1 k).map Prod.fst).Nodup :=
    addKeyToBucket_keys_nodup hmidnodup
  -- a member of a bucket other than nd.freq is not k
  have hnotk : ∀ g l, aFind bs g = some l → g ≠ nd.freq → k ∉ l := by
    intro g l hgl hgne hkin
    have := (hbuck _ (aFind_mem hgl)).2 k hkin
    rw [hk] at this
    exact hgne (by simpa using this.symm)
  refine ⟨?_, hbs', ?_, ?_⟩
  · rw [keys_aSet_of_mem hkmem]; exact hm
  · -- every bucket of the result is sound
    intro p hp
    have hpfind : aFind (addKeyToBucket (removeKeyFromBucket bs nd.freq k) f1 k) p.1 = some p.2 :=
      aFind_of_mem_nodup hbs' hp
    by_cases hp1 : p.1 = f1
    · -- the target bucket
      rw [hp1, aFind_addKeyToBucket_self] at hpfind
      have hp2 : p.2 = (aFind (removeKeyFromBucket bs nd.freq k) f1).getD [] ++ [k] := by
        simpa using hpfind.symm
      by_cases hfe : f1 = nd.freq
      · -- back into the same bucket
        have hmid : aFind (removeKeyFromBucket bs nd.freq k) f1 =
            some (l0.eraseP (fun x => decide (x = k))) := by
          rw [hfe, aFind_removeKeyFromBucket_self, hl0f]
          rfl
        rw [hmid] at hp2
        simp only [Option.getD_some] at hp2
        constructor
        · rw [hp2]
          have h1 : (l0.eraseP (fun x => decide (x = k))).Nodup := nodup_keyErase hl0nodup
          have h2 : k ∉ l0.eraseP (fun x => decide (x = k)) := keyErase_not_mem hl0nodup
          simp [List.nodup_append, h1, h2]
        · intro x hx
          rw [hp2] at hx
          rcases List.mem_append.1 hx with hx1 | hx1
          · have hxk : x ≠ k := by
              intro he; rw [he] at hx1; exact keyErase_not_mem hl0nodup hx1
            rw [aFind_aSet_ne hxk]
            have := (hbuck _ hl0mem).2 x (mem_of_mem_keyErase hx1)
            rw [this, hp1, hfe]
          · have hxk : x = k := by simpa using hx1
            rw [hxk, aFind_aSet_self, hp1]
            rfl
      · -- into a different bucket
        have hmid : aFind (removeKeyFromBucket bs nd.freq k) f1 = aFind bs f1 :=
          aFind_removeKeyFromBucket_ne hfe
        rcases hold : aFind bs f1 with _ | l1
        · rw [hmid, hold] at hp2
          simp only [Option.getD_none, List.nil_append] at hp2
          constructor
          · rw [hp2]; exact List.nodup_singleton k
          · intro x hx
            rw [hp2] at hx
            have hxk : x = k := by simpa using hx
            rw [hxk, aFind_aSet_self, hp1]
            rfl
        · rw [hmid, hold] at hp2
          simp only [Option.getD_some] at hp2
          have hknotin : k ∉ l1 := hnotk f1 l1 hold hfe
          have hl1 := hbuck _ (aFind_mem hold)
          constructor
          · rw [hp2]
            simp [List.nodup_append, hl1.1, hknotin]
          · intro x hx
            rw [hp2] at hx
            rcases List.mem_append.1 hx with hx1 | hx1
            · have hxk : x ≠ k := fun he => hknotin (he ▸ hx1)
              rw [aFind_aSet_ne hxk]
              have := hl1.2 x hx1
              rw [this, hp1]
            · have hxk : x = k := by simpa using hx1
              rw [hxk, aFind_aSet_self, hp1]
              rfl
    · -- an untouched or only-erased bucket
      rw [aFind_addKeyToBucket_ne hp1] at hpfind
      by_cases hpe : p.1 = nd.freq
      · rw [hpe, aFind_removeKeyFromBucket_self, hl0f] at hpfind
        have hp2 : p.2 = l0.eraseP (fun x => decide (x = k)) := by simpa using hpfind.symm
        constructor
        · rw [hp2]; exact nodup_keyErase hl0nodup
        · intro x hx
          rw [hp2] at hx
          have hxk : x ≠ k := by
            intro he; rw [he] at hx; exact keyErase_not_mem hl0nodup hx
          rw [aFind_aSet_ne hxk]
          have := (hbuck _ hl0mem).2 x (mem_of_mem_keyErase hx)
          rw [this, hpe]
      · rw [aFind_removeKeyFromBucket_ne hpe] at hpfind
        have hpmem := aFind_mem hpfind
        have hpb := hbuck _ hpmem
        refine ⟨hpb.1, fun x hx => ?_⟩
        have hxk : x ≠ k := by
          intro he
          exact hnotk p.1 p.2 (by rw [← hpfind]) hpe (he ▸ hx)
        rw [aFind_aSet_ne hxk]
        exact hpb.2 x hx
  · -- every node of the result sits in its bucket
    intro q hq
    rcases mem_aSet_nodup hm hq with rfl | ⟨hqm, hqk⟩
    · refine ⟨hf, ?_⟩
      rw [show ((k, (⟨f1, v1⟩ : LfuNode V)) : K × LfuNode V).2.freq = f1 from rfl,
        aFind_addKeyToBucket_self]
      simp
    · have hq0 := hnode q hqm
      refine ⟨hq0.1, ?_⟩
      have hql : ∃ l2, aFind bs q.2.freq = some l2 ∧ q.1 ∈ l2 := by
        rcases hfind : aFind bs q.2.freq with _ | l2
        · rw [hfind] at hq0; simp at hq0
        · rw [hfind] at hq0; exact ⟨l2, rfl, by simpa using hq0.2⟩
      obtain ⟨l2, hl2f, hl2q⟩ := hql
      have hq1k : q.1 ≠ k := by
        intro he
        have := aFind_of_mem_nodup hm hqm
        rw [he, hk] at this
        exact hqk he
      by_cases hqf : q.2.freq = f1
      · rw [hqf, aFind_addKeyToBucket_self]
        simp only [Option.getD_some]
        refine List.mem_append.2 (Or.inl ?_)
        by_cases hfe : f1 = nd.freq
        · rw [hfe, aFind_removeKeyFromBucket_self, hl0f]
          have hte : l0 = l2 := by
            rw [hfe] at hqf
            rw [hqf] at hl2f
            rw [hl0f] at hl2f
            exact Option.some_inj.1 hl2f
          rw [hte] at hl0nodup ⊢
          show q.1 ∈ List.eraseP (fun x => decide (x = k)) l2
          exact (mem_keyErase_of_ne hq1k).2 hl2q
        · rw [aFind_removeKeyFromBucket_ne hfe]
          rw [← hqf, hl2f]
          simpa using hl2q
      · rw [aFind_addKeyToBucket_ne hqf]
        by_cases hqe : q.2.freq = nd.freq
        · rw [hqe, aFind_removeKeyFromBucket_self]
          rw [hqe] at hl2f
          rw [hl2f]
          show q.1 ∈ List.eraseP (fun x => decide (x = k)) l2
          exact (mem_keyErase_of_ne hq1k).2 hl2q
        · rw [aFind_removeKeyFromBucket_ne hqe, hl2f]
          simpa using hl2q

end LfuCache

/-! ## LruCache lemmas -/

namespace LruCache

variable {K V : Type} [DecidableEq K]

theorem lookupNode_key {s : LruCache K V} {k : K} {e : LruNode K V}
    (h : s.lookupNode k = some e) : e.key = k ∧ e ∈ s.entries := by
  unfold lookupNode at h
  exact ⟨by simpa using List.find?_some h, List.mem_of_find?_eq_some h⟩

theorem lookupNode_none {s : LruCache K V} {k : K} (h : s.lookupNode k = none) :
    ∀ e ∈ s.entries, e.key ≠ k := by
  unfold lookupNode at h
  intro e he
  simpa using List.find?_eq_none.1 h e he

/-- After erasing key `k` from a nodup-keyed list, no entry with key `k`
remains. -/
theorem eraseKey_no_key {l : List (LruNode K V)} {k : K}
    (h : (l.map LruNode.key).Nodup) : ∀ x ∈ eraseKey l k, x.key ≠ k := by
  induction l with
  | nil => simp [eraseKey]
  | cons p t ih =>
      have h1 : p.key ∉ t.map LruNode.key := (List.nodup_cons.1 (by simpa using h)).1
      have h2 : (t.map LruNode.key).Nodup := (List.nodup_cons.1 (by simpa using h)).2
      intro x hx
      by_cases hp : p.key = k
      · rw [show eraseKey (p :: t) k = t from by
          simp [eraseKey, List.eraseP_cons_of_pos, hp]] at hx
        intro hxk
        exact h1 (List.mem_map.2 ⟨x, hx, hxk.trans hp.symm⟩)
      · rw [show eraseKey (p :: t) k = p :: eraseKey t k from by
          simp [eraseKey, List.eraseP_cons_of_neg, hp]] at hx
        rcases List.mem_cons.1 hx with rfl | hx
        · exact hp
        · exact ih h2 x hx

theorem length_eraseKey_of_mem {l : List (LruNode K V)} {k : K} {e : LruNode K V}
    (he : e ∈ l) (hk : e.key = k) : (eraseKey l k).length + 1 = l.length := by
  have := List.length_eraseP_of_mem he (p := fun x => decide (x.key = k)) (by simp [hk])
  have hpos : 0 < l.length := List.length_pos_of_mem he
  unfold eraseKey
  omega

theorem lookupNode_append_none {l1 l2 : List (LruNode K V)} {k : K}
    (h : ∀ e ∈ l1, e.key ≠ k) :
    (l1 ++ l2).find? (fun e => decide (e.key = k)) = l2.find? (fun e => decide (e.key = k)) := by
  rw [List.find?_append]
  have : l1.find? (fun e => decide (e.key = k)) = none :=
    List.find?_eq_none.2 (by simpa using h)
  rw [this, Option.none_or]

/-- After `put k v` on a well-formed cache with positive capacity, key `k`
maps to value `v`. -/
theorem lookupNode_put_self {s : LruCache K V} {k : K} {v : V}
    (hwf : s.WF) (hcap : 0 < s.capacity) :
    ∃ c, (s.put k v).lookupNode k = some ⟨k, v, c⟩ := by
  unfold put
  rw [if_neg (by omega)]
  rcases hl : s.lookupNode k with _ | e
  · refine ⟨1, ?_⟩
    show (s.addNewNode k v).lookupNode k = _
    unfold addNewNode lookupNode
    have habs : ∀ e ∈ s.entries, e.key ≠ k := lookupNode_none hl
    rcases hde : cppSizeGeCap s.entries.length s.capacity with _ | _
    · simp only [hde, if_neg, Bool.false_eq_true, if_false]
      rw [lookupNode_append_none habs]
      simp [List.find?_cons]
    · simp only [hde, if_true]
      have htail : ∀ e ∈ s.entries.tail, e.key ≠ k := fun e he =>
        habs e (List.mem_of_mem_tail he)
      rw [show (s.evictLeastRecent).entries = s.entries.tail from rfl]
      rw [lookupNode_append_none htail]
      simp [List.find?_cons]
  · rcases lookupNode_key hl with ⟨hek, hemem⟩
    refine ⟨e.accessCount, ?_⟩
    show (s.updateExistingNode e v).lookupNode k = _
    unfold updateExistingNode move2MostRecent lookupNode
    have hkk : ({ e with value := v } : LruNode K V).key = e.key := rfl
    rw [hkk, hek]
    rw [lookupNode_append_none (eraseKey_no_key hwf)]
    rcases e with ⟨ek, ev, ec⟩
    simp only at hek
    subst hek
    simp [List.find?_cons]

end LruCache

/-! ## LfuCache lemmas: the key-to-node map across the internal operations -/

namespace LfuCache

variable {K V : Type} [DecidableEq K]

/-- The node-map effect of one `ageOne` fold step sequence: keys are
preserved and every processed key's node gets the aged frequency (value
unchanged). -/
theorem ageFold_find (maxAvg : Int) :
    ∀ (ks : List K) (m : List (K × LfuNode V)) (bs : List (Int × List K)),
      (m.map Prod.fst).Nodup → ks.Nodup → (∀ x ∈ ks, x ∈ m.map Prod.fst) →
      ((ks.foldl (ageOne maxAvg) (m, bs)).1.map Prod.fst = m.map Prod.fst ∧
       ∀ x, aFind (ks.foldl (ageOne maxAvg) (m, bs)).1 x =
         (if x ∈ ks then (aFind m x).map (fun nd => ⟨agedFreq maxAvg nd.freq, nd.value⟩)
          else aFind m x)) := by
  intro ks
  induction ks with
  | nil => intro m bs _ _ _; simp
  | cons k1 rest ih =>
      intro m bs hm hks hsub
      rcases aFind_isSome_of_mem_keys (hsub k1 (by simp)) with ⟨nd, hnd⟩
      have hstep : ageOne maxAvg (m, bs) k1 =
          (aSet m k1 ⟨agedFreq maxAvg nd.freq, nd.value⟩,
           addKeyToBucket (removeKeyFromBucket bs nd.freq k1) (agedFreq maxAvg nd.freq) k1) := by
        unfold ageOne
        rw [show aFind (m, bs).1 k1 = some nd from hnd]
      have hk1mem : k1 ∈ m.map Prod.fst := hsub k1 (by simp)
      have hkeys : (aSet m k1 ⟨agedFreq maxAvg nd.freq, nd.value⟩).map Prod.fst = m.map Prod.fst :=
        keys_aSet_of_mem hk1mem
      have hrest : ∀ x ∈ rest, x ∈ (aSet m k1 ⟨agedFreq maxAvg nd.freq, nd.value⟩).map Prod.fst := by
        intro x hx; rw [hkeys]; exact hsub x (by simp [hx])
      have hmnd : ((aSet m k1 ⟨agedFreq maxAvg nd.freq, nd.value⟩).map Prod.fst).Nodup := by
        rw [hkeys]; exact hm
      have hknd : rest.Nodup := (List.nodup_cons.1 hks).2
      have hk1rest : k1 ∉ rest := (List.nodup_cons.1 hks).1
      have ihres := ih (aSet m k1 ⟨agedFreq maxAvg nd.freq, nd.value⟩)
        (addKeyToBucket (removeKeyFromBucket bs nd.freq k1) (agedFreq maxAvg nd.freq) k1)
        hmnd hknd hrest
      constructor
      · rw [List.foldl_cons, hstep]
        rw [ihres.1, hkeys]
      · intro x
        rw [List.foldl_cons, hstep]
        rw [ihres.2 x]
        by_cases hx1 : x = k1
        · subst hx1
          rw [if_neg hk1rest, if_pos (List.mem_cons_self x rest), aFind_aSet_self, hnd]
          rfl
        · rw [aFind_aSet_ne hx1]
          by_cases hxr : x ∈ rest
          · rw [if_pos hxr, if_pos (List.mem_cons.2 (Or.inr hxr))]
          · rw [if_neg hxr, if_neg (by simp [hx1, hxr])]

/-- `updateMinFreq` only changes `minFreq`. -/
theorem updateMinFreq_nodeMap (s : LfuCache K V) : s.updateMinFreq.nodeMap = s.nodeMap := rfl

theorem updateMinFreq_buckets (s : LfuCache K V) : s.updateMinFreq.buckets = s.buckets := rfl

theorem updateMinFreq_minFreq (s : LfuCache K V) :
    s.updateMinFreq.minFreq = updateMinFreqVal s.buckets := rfl

/-- `recomputeAvg` only changes `curAvgNum`. -/
theorem recomputeAvg_nodeMap (s : LfuCache K V) : (recomputeAvg s).nodeMap = s.nodeMap := by
  unfold recomputeAvg; split <;> rfl

theorem recomputeAvg_buckets (s : LfuCache K V) : (recomputeAvg s).buckets = s.buckets := by
  unfold recomputeAvg; split <;> rfl

theorem recomputeAvg_minFreq (s : LfuCache K V) : (recomputeAvg s).minFreq = s.minFreq := by
  unfold recomputeAvg; split <;> rfl

theorem recomputeAvg_capacity (s : LfuCache K V) : (recomputeAvg s).capacity = s.capacity := by
  unfold recomputeAvg; split <;> rfl

theorem recomputeAvg_maxAvgNum (s : LfuCache K V) : (recomputeAvg s).maxAvgNum = s.maxAvgNum := by
  unfold recomputeAvg; split <;> rfl

theorem recomputeAvg_curTotalNum (s : LfuCache K V) :
    (recomputeAvg s).curTotalNum = s.curTotalNum := by
  unfold recomputeAvg; split <;> rfl

/-- `handleOverMaxAvgNum` preserves the key set and applies `agedFreq` to
every node, keeping values. -/
theorem handleOver_find {s : LfuCache K V} (hm : (s.nodeMap.map Prod.fst).Nodup) :
    (s.handleOverMaxAvgNum).nodeMap.map Prod.fst = s.nodeMap.map Prod.fst ∧
    ∀ x, aFind (s.handleOverMaxAvgNum).nodeMap x =
      (if s.nodeMap.isEmpty then aFind s.nodeMap x
       else (aFind s.nodeMap x).map (fun nd => ⟨agedFreq s.maxAvgNum nd.freq, nd.value⟩)) := by
  have hfold := ageFold_find s.maxAvgNum (s.nodeMap.map Prod.fst)
    s.nodeMap s.buckets hm hm (fun x hx => hx)
  by_cases he : s.nodeMap.isEmpty = true
  · have hs : s.handleOverMaxAvgNum = s := by
      simp only [handleOverMaxAvgNum, if_pos he]
    rw [hs]
    exact ⟨rfl, fun x => (if_pos he).symm⟩
  · have hmap : s.handleOverMaxAvgNum.nodeMap =
        ((s.nodeMap.map Prod.fst).foldl (ageOne s.maxAvgNum) (s.nodeMap, s.buckets)).1 := by
      simp only [handleOverMaxAvgNum, if_neg he, updateMinFreq_nodeMap]
    refine ⟨by rw [hmap, hfold.1], fun x => ?_⟩
    rw [hmap, hfold.2 x, if_neg he]
    by_cases hx : x ∈ s.nodeMap.map Prod.fst
    · rw [if_pos hx]
    · rw [if_neg hx]
      have hfn : aFind s.nodeMap x = none := by
        rw [aFind_eq_none]
        intro p hp hpx
        exact hx (by rw [← hpx]; exact List.mem_map.2 ⟨p, hp, rfl⟩)
      rw [hfn]; rfl

/-- `addFreqNum` preserves the key set and the values of the map (it
re-buckets and re-weights on aging, never adds or removes keys). -/
theorem addFreqNum_find {s : LfuCache K V} (hm : (s.nodeMap.map Prod.fst).Nodup) :
    (s.addFreqNum).nodeMap.map Prod.fst = s.nodeMap.map Prod.fst ∧
    ∀ x, ((aFind (s.addFreqNum).nodeMap x).map LfuNode.value =
       (aFind s.nodeMap x).map LfuNode.value) := by
  unfold addFreqNum
  set s1 := recomputeAvg { s with curTotalNum := s.curTotalNum + 1 } with hs1
  have h1 : s1.nodeMap = s.nodeMap := by
    rw [hs1, recomputeAvg_nodeMap]
  by_cases hc : s1.curAvgNum > s1.maxAvgNum
  · rw [if_pos hc]
    have hm1 : (s1.nodeMap.map Prod.fst).Nodup := by rw [h1]; exact hm
    have hh := handleOver_find hm1
    constructor
    · rw [hh.1, h1]
    · intro x
      rw [hh.2 x, h1]
      by_cases he : s.nodeMap.isEmpty = true
      · rw [if_pos he]
      · rw [if_neg he]
        rcases aFind s.nodeMap x with _ | nd <;> simp
  · rw [if_neg hc]
    rw [h1]
    exact ⟨rfl, fun x => rfl⟩

/-- `kickOut` never adds map keys. -/
theorem kickOut_keys_sublist (s : LfuCache K V) :
    ((s.kickOut).nodeMap.map Prod.fst).Sublist (s.nodeMap.map Prod.fst) := by
  simp only [kickOut]
  split
  · split
    · simp only [decreaseFreqNum, recomputeAvg_nodeMap]
      exact keys_aErase_sublist
    · simp only [decreaseFreqNum, recomputeAvg_nodeMap]
      exact List.Sublist.refl _
  · simp only [decreaseFreqNum, recomputeAvg_nodeMap]
    exact List.Sublist.refl _

/-- `aSet` keeps map keys distinct. -/
theorem keys_aSet_nodup {A B : Type} [DecidableEq A] {m : List (A × B)} {a : A} {b : B}
    (hm : (m.map Prod.fst).Nodup) : ((aSet m a b).map Prod.fst).Nodup := by
  by_cases hmem : a ∈ m.map Prod.fst
  · rw [keys_aSet_of_mem hmem]; exact hm
  · rw [keys_aSet_of_not_mem hmem]
    simp [List.nodup_append, hm, hmem]

/-- The node map produced by `getInternal` stores the argument node's value
at the argument key. -/
theorem getInternal_find_value {s : LfuCache K V} {k : K} {nd : LfuNode V}
    (hm : (s.nodeMap.map Prod.fst).Nodup) :
    (aFind ((s.getInternal k nd).2).nodeMap k).map LfuNode.value = some nd.value := by
  simp only [getInternal]
  split
  · refine ((addFreqNum_find ?_).2 k).trans ?_
    · exact keys_aSet_nodup hm
    · show (aFind (aSet s.nodeMap k ⟨nd.freq + 1, nd.value⟩) k).map LfuNode.value = _
      rw [aFind_aSet_self]; rfl
  · refine ((addFreqNum_find ?_).2 k).trans ?_
    · exact keys_aSet_nodup hm
    · show (aFind (aSet s.nodeMap k ⟨nd.freq + 1, nd.value⟩) k).map LfuNode.value = _
      rw [aFind_aSet_self]; rfl

/-- After `put k v` on a nodup-keyed map with non-zero capacity, the value
stored at `k` is `v`. -/
theorem put_find_value {s : LfuCache K V} {k : K} {v : V}
    (hm : (s.nodeMap.map Prod.fst).Nodup) (hcap : s.capacity ≠ 0) :
    ((aFind (s.put k v).nodeMap k).map LfuNode.value) = some v := by
  unfold put
  rw [if_neg hcap]
  rcases hl : aFind s.nodeMap k with _ | nd
  · -- absent: putInternal
    by_cases hge : cppSizeGeCap s.nodeMap.length s.capacity = true
    · simp only [putInternal, if_pos hge]
      refine ((addFreqNum_find ?_).2 k).trans ?_
      · exact keys_aSet_nodup (hm.sublist (kickOut_keys_sublist s))
      · show (aFind (aSet (s.kickOut).nodeMap k ⟨1, v⟩) k).map LfuNode.value = _
        rw [aFind_aSet_self]; rfl
    · simp only [putInternal, if_neg hge]
      refine ((addFreqNum_find ?_).2 k).trans ?_
      · exact keys_aSet_nodup hm
      · show (aFind (aSet s.nodeMap k ⟨1, v⟩) k).map LfuNode.value = _
        rw [aFind_aSet_self]; rfl
  · -- present: overwrite plus promotion as on get
    have hm1 : ((aSet s.nodeMap k ⟨nd.freq, v⟩).map Prod.fst).Nodup := keys_aSet_nodup hm
    have hgi : (aFind ((({ s with nodeMap := aSet s.nodeMap k ⟨nd.freq, v⟩ } : LfuCache K V).getInternal
        k ⟨nd.freq, v⟩).2).nodeMap k).map LfuNode.value = some (⟨nd.freq, v⟩ : LfuNode V).value :=
      getInternal_find_value hm1
    exact hgi

end LfuCache

namespace LfuCache

variable {K V : Type} [DecidableEq K]

theorem agedFreq_pos (maxAvg f : Int) : 1 ≤ agedFreq maxAvg f := by
  simp only [agedFreq]
  split
  · omega
  · omega

theorem agedFreq_one {maxAvg : Int} (h : 0 ≤ maxAvg) : agedFreq maxAvg 1 = 1 := by
  have ht : 0 ≤ maxAvg.tdiv 2 := Int.tdiv_nonneg h (by norm_num)
  simp only [agedFreq]
  split
  · rfl
  · omega

theorem agedFreq_lt {maxAvg f : Int} (hf : 1 ≤ f) (hflt : f < INT8MAX)
    (h : 0 ≤ maxAvg) : agedFreq maxAvg f < INT8MAX := by
  have ht : 0 ≤ maxAvg.tdiv 2 := Int.tdiv_nonneg h (by norm_num)
  simp only [agedFreq, INT8MAX] at *
  split
  · omega
  · omega

/-- The `updateMinFreq` fold: a lower bound on its seed and on the index
of every non-empty bucket, and it is either the seed or attained. -/
theorem foldMin_spec {K : Type} (bs : List (Int × List K)) (A : Int) :
    (bs.foldl (fun acc p => if p.2.isEmpty then acc else min acc p.1) A ≤ A) ∧
    (∀ p ∈ bs, p.2 ≠ [] →
      bs.foldl (fun acc p => if p.2.isEmpty then acc else min acc p.1) A ≤ p.1) ∧
    (bs.foldl (fun acc p => if p.2.isEmpty then acc else min acc p.1) A = A ∨
      ∃ p ∈ bs, p.2 ≠ [] ∧
        bs.foldl (fun acc p => if p.2.isEmpty then acc else min acc p.1) A = p.1) := by
  induction bs generalizing A with
  | nil => exact ⟨le_refl A, by simp, Or.inl rfl⟩
  | cons p t ih =>
      by_cases hpe : p.2.isEmpty = true
      · have hstep : (p :: t).foldl (fun acc q => if q.2.isEmpty then acc else min acc q.1) A =
            t.foldl (fun acc q => if q.2.isEmpty then acc else min acc q.1) A := by
          rw [List.foldl_cons, if_pos hpe]
        rw [hstep]
        rcases ih A with ⟨h1, h2, h3⟩
        refine ⟨h1, ?_, ?_⟩
        · intro q hq hqe
          rcases List.mem_cons.1 hq with rfl | hqt
          · exact absurd (List.isEmpty_iff.1 hpe) hqe
          · exact h2 q hqt hqe
        · rcases h3 with h3 | ⟨q, hq, hqe, hqeq⟩
          · exact Or.inl h3
          · exact Or.inr ⟨q, List.mem_cons.2 (Or.inr hq), hqe, hqeq⟩
      · have hstep : (p :: t).foldl (fun acc q => if q.2.isEmpty then acc else min acc q.1) A =
            t.foldl (fun acc q => if q.2.isEmpty then acc else min acc q.1) (min A p.1) := by
          rw [List.foldl_cons, if_neg hpe]
        rw [hstep]
        rcases ih (min A p.1) with ⟨h1, h2, h3⟩
        have hne : p.2 ≠ [] := fun he => hpe (by rw [he]; rfl)
        refine ⟨le_trans h1 (min_le_left _ _), ?_, ?_⟩
        · intro q hq hqe
          rcases List.mem_cons.1 hq with rfl | hqt
          · exact le_trans h1 (min_le_right _ _)
          · exact h2 q hqt hqe
        · rcases h3 with h3 | ⟨q, hq, hqe, hqeq⟩
          · rcases min_choice A p.1 with hmin | hmin
            · exact Or.inl (by rw [h3, hmin])
            · exact Or.inr ⟨p, List.mem_cons.2 (Or.inl rfl), hne, by rw [h3, hmin]⟩
          · exact Or.inr ⟨q, List.mem_cons.2 (Or.inr hq), hqe, hqeq⟩

/-- When some non-empty bucket has index below `INT8_MAX`, `updateMinFreq`
computes a lower bound of all non-empty buckets that is attained and lies
below `INT8_MAX`. -/
theorem updateMinFreqVal_spec {K : Type} {bs : List (Int × List K)}
    {p0 : Int × List K} (hp0 : p0 ∈ bs) (hp0ne : p0.2 ≠ []) (hp0lt : p0.1 < INT8MAX) :
    (∀ p ∈ bs, p.2 ≠ [] → updateMinFreqVal bs ≤ p.1) ∧
    (∃ p ∈ bs, p.2 ≠ [] ∧ updateMinFreqVal bs = p.1) ∧
    updateMinFreqVal bs < INT8MAX := by
  rcases foldMin_spec bs INT8MAX with ⟨h1, h2, h3⟩
  have hlt : bs.foldl (fun acc p => if p.2.isEmpty then acc else min acc p.1) INT8MAX < INT8MAX :=
    lt_of_le_of_lt (h2 p0 hp0 hp0ne) hp0lt
  have hne : bs.foldl (fun acc p => if p.2.isEmpty then acc else min acc p.1) INT8MAX ≠ INT8MAX :=
    ne_of_lt hlt
  have hval : updateMinFreqVal bs =
      bs.foldl (fun acc p => if p.2.isEmpty then acc else min acc p.1) INT8MAX := by
    unfold updateMinFreqVal
    rw [if_neg hne]
  rcases h3 with h3 | h3
  · exact absurd h3 hne
  · exact ⟨fun p hp hpe => hval ▸ h2 p hp hpe, by rw [hval]; exact h3, hval ▸ hlt⟩

/-- `updateMinFreqVal` is at least 1 whenever every non-empty bucket has a
positive index. -/
theorem updateMinFreqVal_pos {K : Type} {bs : List (Int × List K)}
    (h : ∀ p ∈ bs, p.2 ≠ [] → 1 ≤ p.1) : 1 ≤ updateMinFreqVal bs := by
  rcases foldMin_spec bs INT8MAX with ⟨h1, h2, h3⟩
  simp only [updateMinFreqVal]
  split
  · omega
  · rcases h3 with h3 | ⟨q, hq, hqe, hqeq⟩
    · next hne => exact absurd h3 hne
    · rw [hqeq]
      exact h q hq hqe

theorem length_aSet_of_mem {m : List (K × LfuNode V)} {a : K} {b : LfuNode V}
    (h : a ∈ m.map Prod.fst) : (aSet m a b).length = m.length := by
  have := keys_aSet_of_mem (b := b) h
  have h1 : (aSet m a b).length = ((aSet m a b).map Prod.fst).length := by
    rw [List.length_map]
  rw [h1, this, List.length_map]

theorem length_aSet_of_not_mem {m : List (K × LfuNode V)} {a : K} {b : LfuNode V}
    (h : a ∉ m.map Prod.fst) : (aSet m a b).length = m.length + 1 := by
  have := keys_aSet_of_not_mem (b := b) h
  have h1 : (aSet m a b).length = ((aSet m a b).map Prod.fst).length := by
    rw [List.length_map]
  rw [h1, this]
  simp

/-- Erasing an entry from map and bucket preserves the invariant. -/
theorem MapBuckets.erase {m : List (K × LfuNode V)} {bs : List (Int × List K)}
    (h : MapBuckets m bs) {k : K} {nd : LfuNode V} (hk : aFind m k = some nd) :
    MapBuckets (aErase m k) (removeKeyFromBucket bs nd.freq k) := by
  obtain ⟨hm, hbs, hbuck, hnode⟩ := h
  have hknode := hnode (k, nd) (aFind_mem hk)
  have hl0 : ∃ l0, aFind bs nd.freq = some l0 ∧ k ∈ l0 := by
    rcases hfind : aFind bs nd.freq with _ | l0
    · rw [hfind] at hknode; simp at hknode
    · rw [hfind] at hknode; exact ⟨l0, rfl, by simpa using hknode.2⟩
  obtain ⟨l0, hl0f, hl0k⟩ := hl0
  have hl0mem : (nd.freq, l0) ∈ bs := aFind_mem hl0f
  have hl0nodup : l0.Nodup := (hbuck _ hl0mem).1
  have hmidnodup : ((removeKeyFromBucket bs nd.freq k).map Prod.fst).Nodup := by
    rw [removeKeyFromBucket_keys]; exact hbs
  have hmnodup : ((aErase m k).map Prod.fst).Nodup := hm.sublist keys_aErase_sublist
  have hnotk : ∀ g l, aFind bs g = some l → g ≠ nd.freq → k ∉ l := by
    intro g l hgl hgne hkin
    have := (hbuck _ (aFind_mem hgl)).2 k hkin
    rw [hk] at this
    exact hgne (by simpa using this.symm)
  refine ⟨hmnodup, hmidnodup, ?_, ?_⟩
  · intro p hp
    have hpfind : aFind (removeKeyFromBucket bs nd.freq k) p.1 = some p.2 :=
      aFind_of_mem_nodup hmidnodup hp
    by_cases hpe : p.1 = nd.freq
    · rw [hpe, aFind_removeKeyFromBucket_self, hl0f] at hpfind
      have hp2 : p.2 = l0.eraseP (fun x => decide (x = k)) := by simpa using hpfind.symm
      constructor
      · rw [hp2]; exact nodup_keyErase hl0nodup
      · intro x hx
        rw [hp2] at hx
        have hxk : x ≠ k := by
          intro he; rw [he] at hx; exact keyErase_not_mem hl0nodup hx
        rw [aFind_aErase_ne hxk]
        have := (hbuck _ hl0mem).2 x (mem_of_mem_keyErase hx)
        rw [this, hpe]
    · rw [aFind_removeKeyFromBucket_ne hpe] at hpfind
      have hpb := hbuck _ (aFind_mem hpfind)
      refine ⟨hpb.1, fun x hx => ?_⟩
      have hxk : x ≠ k := by
        intro he
        exact hnotk p.1 p.2 (by rw [← hpfind]) hpe (he ▸ hx)
      rw [aFind_aErase_ne hxk]
      exact hpb.2 x hx
  · intro q hq
    rcases mem_aErase_nodup hm hq with ⟨hqm, hqk⟩
    have hq0 := hnode q hqm
    refine ⟨hq0.1, ?_⟩
    have hql : ∃ l2, aFind bs q.2.freq = some l2 ∧ q.1 ∈ l2 := by
      rcases hfind : aFind bs q.2.freq with _ | l2
      · rw [hfind] at hq0; simp at hq0
      · rw [hfind] at hq0; exact ⟨l2, rfl, by simpa using hq0.2⟩
    obtain ⟨l2, hl2f, hl2q⟩ := hql
    have hq1k : q.1 ≠ k := hqk
    by_cases hqe : q.2.freq = nd.freq
    · rw [hqe, aFind_removeKeyFromBucket_self]
      rw [hqe] at hl2f
      rw [hl2f]
      show q.1 ∈ List.eraseP (fun x => decide (x = k)) l2
      exact (mem_keyErase_of_ne hq1k).2 hl2q
    · rw [aFind_removeKeyFromBucket_ne hqe, hl2f]
      simpa using hl2q

/-- Overwriting only the value of an existing node preserves the invariant
and every `minFreq` fact. -/
theorem MapBuckets.setValue {m : List (K × LfuNode V)} {bs : List (Int × List K)}
    (h : MapBuckets m bs) {k : K} {nd : LfuNode V} (hk : aFind m k = some nd) (v : V) :
    MapBuckets (aSet m k ⟨nd.freq, v⟩) bs := by
  obtain ⟨hm, hbs, hbuck, hnode⟩ := h
  have hkmem : k ∈ m.map Prod.fst := mem_keys_of_aFind hk
  refine ⟨by rw [keys_aSet_of_mem hkmem]; exact hm, hbs, ?_, ?_⟩
  · intro p hp
    refine ⟨(hbuck p hp).1, fun x hx => ?_⟩
    by_cases hxk : x = k
    · rw [hxk, aFind_aSet_self]
      have := (hbuck p hp).2 x hx
      rw [hxk, hk] at this
      simpa using this
    · rw [aFind_aSet_ne hxk]
      exact (hbuck p hp).2 x hx
  · intro q hq
    rcases mem_aSet_nodup hm hq with rfl | ⟨hqm, hqk⟩
    · have := hnode (k, nd) (aFind_mem hk)
      exact ⟨this.1, this.2⟩
    · exact hnode q hqm

theorem bucketEnsure_of_find {bs : List (Int × List K)} {f : Int} {l : List K}
    (h : aFind bs f = some l) : bucketEnsure bs f = bs := by
  unfold bucketEnsure
  rw [h]

/-! Field preservation: `capacity` and `maxAvgNum` are never written by the
operations (only the constructor sets them). -/

theorem handleOver_fields (s : LfuCache K V) :
    (s.handleOverMaxAvgNum).capacity = s.capacity ∧
    (s.handleOverMaxAvgNum).maxAvgNum = s.maxAvgNum ∧
    (s.handleOverMaxAvgNum).curTotalNum = s.curTotalNum := by
  by_cases he : s.nodeMap.isEmpty = true <;>
    simp [handleOverMaxAvgNum, he, updateMinFreq]

theorem addFreqNum_fields (s : LfuCache K V) :
    (s.addFreqNum).capacity = s.capacity ∧ (s.addFreqNum).maxAvgNum = s.maxAvgNum := by
  simp only [addFreqNum]
  by_cases hc : (recomputeAvg { s with curTotalNum := s.curTotalNum + 1 } : LfuCache K V).curAvgNum >
      (recomputeAvg { s with curTotalNum := s.curTotalNum + 1 } : LfuCache K V).maxAvgNum
  · rw [if_pos hc]
    rcases handleOver_fields (recomputeAvg { s with curTotalNum := s.curTotalNum + 1 }) with ⟨h1, h2, h3⟩
    rw [h1, h2, recomputeAvg_capacity, recomputeAvg_maxAvgNum]
    exact ⟨rfl, rfl⟩
  · rw [if_neg hc, recomputeAvg_capacity, recomputeAvg_maxAvgNum]
    exact ⟨rfl, rfl⟩

theorem kickOut_fields (s : LfuCache K V) :
    (s.kickOut).capacity = s.capacity ∧ (s.kickOut).maxAvgNum = s.maxAvgNum ∧
    (s.kickOut).minFreq = s.minFreq := by
  simp only [kickOut]
  split
  · split <;>
      simp [decreaseFreqNum, recomputeAvg_capacity, recomputeAvg_maxAvgNum, recomputeAvg_minFreq]
  · simp [decreaseFreqNum, recomputeAvg_capacity, recomputeAvg_maxAvgNum, recomputeAvg_minFreq]

theorem getInternal_fields (s : LfuCache K V) (k : K) (nd : LfuNode V) :
    ((s.getInternal k nd).2).capacity = s.capacity ∧
    ((s.getInternal k nd).2).maxAvgNum = s.maxAvgNum := by
  simp only [getInternal]
  split
  · rcases addFreqNum_fields
      ({ s with
          nodeMap := aSet s.nodeMap k ⟨nd.freq + 1, nd.value⟩,
          buckets := addKeyToBucket (removeKeyFromBucket s.buckets nd.freq k) (nd.freq + 1) k,
          minFreq := s.minFreq + 1 } : LfuCache K V) with ⟨h1, h2⟩
    exact ⟨h1, h2⟩
  · rcases addFreqNum_fields
      ({ s with
          nodeMap := aSet s.nodeMap k ⟨nd.freq + 1, nd.value⟩,
          buckets := addKeyToBucket (removeKeyFromBucket s.buckets nd.freq k) (nd.freq + 1) k } : LfuCache K V) with ⟨h1, h2⟩
    exact ⟨h1, h2⟩

theorem putInternal_fields (s : LfuCache K V) (k : K) (v : V) :
    ((s.putInternal k v)).capacity = s.capacity ∧
    ((s.putInternal k v)).maxAvgNum = s.maxAvgNum := by
  simp only [putInternal]
  by_cases hge : cppSizeGeCap s.nodeMap.length s.capacity = true
  · rw [if_pos hge]
    rcases addFreqNum_fields
      ({ s.kickOut with
          nodeMap := aSet (s.kickOut).nodeMap k ⟨1, v⟩,
          buckets := addKeyToBucket (s.kickOut).buckets 1 k } : LfuCache K V) with ⟨h1, h2⟩
    rcases kickOut_fields s with ⟨h3, h4, h5⟩
    exact ⟨by rw [h1]; exact h3, by rw [h2]; exact h4⟩
  · rw [if_neg hge]
    rcases addFreqNum_fields
      ({ s with nodeMap := aSet s.nodeMap k ⟨1, v⟩,
                buckets := addKeyToBucket s.buckets 1 k } : LfuCache K V) with ⟨h1, h2⟩
    exact ⟨h1, h2⟩

theorem put_fields (s : LfuCache K V) (k : K) (v : V) :
    ((s.put k v)).capacity = s.capacity ∧ ((s.put k v)).maxAvgNum = s.maxAvgNum := by
  unfold put
  split
  · exact ⟨rfl, rfl⟩
  · split
    · exact getInternal_fields _ k _
    · exact putInternal_fields s k v

theorem getOut_fields (s : LfuCache K V) (k : K) (out : V) :
    (((s.getOut k out).2.2)).capacity = s.capacity ∧
    (((s.getOut k out).2.2)).maxAvgNum = s.maxAvgNum := by
  unfold getOut
  split
  · next nd hnd => exact getInternal_fields s k nd
  · exact ⟨rfl, rfl⟩

end LfuCache

namespace LfuCache

variable {K V : Type} [DecidableEq K]

/-- Every non-empty bucket of a well-formed pair has index at least 1. -/
theorem MapBuckets.bucket_pos {m : List (K × LfuNode V)} {bs : List (Int × List K)}
    (h : MapBuckets m bs) : ∀ p ∈ bs, p.2 ≠ [] → 1 ≤ p.1 := by
  intro p hp hne
  rcases List.exists_mem_of_ne_nil p.2 hne with ⟨x, hx⟩
  have h2 := (h.2.2.1 p hp).2 x hx
  rcases hfind : aFind m x with _ | nd
  · rw [hfind] at h2; simp at h2
  · rw [hfind] at h2
    have h3 := h.2.2.2 (x, nd) (aFind_mem hfind)
    have h4 : nd.freq = p.1 := by simpa using h2
    rw [← h4]
    exact h3.1

/-- The aging fold preserves the map/bucket invariant. -/
theorem ageFold_inv (maxAvg : Int) :
    ∀ (ks : List K) (m : List (K × LfuNode V)) (bs : List (Int × List K)),
      MapBuckets m bs → ks.Nodup → (∀ x ∈ ks, x ∈ m.map Prod.fst) →
      MapBuckets (ks.foldl (ageOne maxAvg) (m, bs)).1 (ks.foldl (ageOne maxAvg) (m, bs)).2 := by
  intro ks
  induction ks with
  | nil => intro m bs h _ _; exact h
  | cons k1 rest ih =>
      intro m bs h hks hsub
      rcases aFind_isSome_of_mem_keys (hsub k1 (by simp)) with ⟨nd, hnd⟩
      have hstep : ageOne maxAvg (m, bs) k1 =
          (aSet m k1 ⟨agedFreq maxAvg nd.freq, nd.value⟩,
           addKeyToBucket (removeKeyFromBucket bs nd.freq k1) (agedFreq maxAvg nd.freq) k1) := by
        unfold ageOne
        rw [show aFind (m, bs).1 k1 = some nd from hnd]
      rw [List.foldl_cons, hstep]
      refine ih _ _ (MapBuckets.move h hnd (agedFreq_pos maxAvg nd.freq) nd.value)
        (List.nodup_cons.1 hks).2 ?_
      intro x hx
      rw [keys_aSet_of_mem (mem_keys_of_aFind hnd)]
      exact hsub x (by simp [hx])

/-- `handleOverMaxAvgNum` preserves the map/bucket invariant and, on a
non-empty cache, recomputes `minFreq` into `updateMinFreqVal` of the new
buckets. -/
theorem handleOver_WF {s : LfuCache K V} (h : MapBuckets s.nodeMap s.buckets) :
    MapBuckets s.handleOverMaxAvgNum.nodeMap s.handleOverMaxAvgNum.buckets ∧
    (s.nodeMap.isEmpty = true → s.handleOverMaxAvgNum = s) ∧
    (s.nodeMap.isEmpty = false →
      s.handleOverMaxAvgNum.minFreq = updateMinFreqVal s.handleOverMaxAvgNum.buckets) := by
  by_cases he : s.nodeMap.isEmpty = true
  · have hs : s.handleOverMaxAvgNum = s := by simp only [handleOverMaxAvgNum, if_pos he]
    rw [hs]
    exact ⟨h, fun _ => rfl, fun hf => absurd he (by rw [hf]; simp)⟩
  · have hmb := ageFold_inv s.maxAvgNum (s.nodeMap.map Prod.fst) s.nodeMap s.buckets h h.1 (fun x hx => hx)
    have hmap : s.handleOverMaxAvgNum.nodeMap =
        ((s.nodeMap.map Prod.fst).foldl (ageOne s.maxAvgNum) (s.nodeMap, s.buckets)).1 := by
      simp only [handleOverMaxAvgNum, if_neg he, updateMinFreq_nodeMap]
    have hbk : s.handleOverMaxAvgNum.buckets =
        ((s.nodeMap.map Prod.fst).foldl (ageOne s.maxAvgNum) (s.nodeMap, s.buckets)).2 := by
      simp only [handleOverMaxAvgNum, if_neg he, updateMinFreq_buckets]
    have hmf : s.handleOverMaxAvgNum.minFreq =
        updateMinFreqVal
          ((s.nodeMap.map Prod.fst).foldl (ageOne s.maxAvgNum) (s.nodeMap, s.buckets)).2 := by
      simp only [handleOverMaxAvgNum, if_neg he, updateMinFreq_minFreq]
    exact ⟨by rw [hmap, hbk]; exact hmb, fun hf => absurd hf he,
      fun _ => by rw [hmf, hbk]⟩

/-- `addFreqNum` preserves the map/bucket invariant and either leaves
`minFreq`, map and buckets unchanged (no aging) or recomputes `minFreq`
via `updateMinFreqVal` while aging every node's frequency. -/
theorem addFreqNum_WF {s : LfuCache K V} (hmb : MapBuckets s.nodeMap s.buckets)
    (hmf : 1 ≤ s.minFreq) :
    MapBuckets s.addFreqNum.nodeMap s.addFreqNum.buckets ∧
    1 ≤ s.addFreqNum.minFreq ∧
    ((s.addFreqNum.minFreq = s.minFreq ∧ s.addFreqNum.nodeMap = s.nodeMap ∧
        s.addFreqNum.buckets = s.buckets) ∨
     (s.nodeMap.isEmpty = false ∧
      s.addFreqNum.minFreq = updateMinFreqVal s.addFreqNum.buckets ∧
      (∀ x, aFind s.addFreqNum.nodeMap x =
        (aFind s.nodeMap x).map (fun nd => ⟨agedFreq s.maxAvgNum nd.freq, nd.value⟩)))) := by
  have hmb1 : MapBuckets
      (recomputeAvg { s with curTotalNum := s.curTotalNum + 1 } : LfuCache K V).nodeMap
      (recomputeAvg { s with curTotalNum := s.curTotalNum + 1 } : LfuCache K V).buckets := by
    rw [recomputeAvg_nodeMap, recomputeAvg_buckets]
    exact hmb
  have h1map : (recomputeAvg { s with curTotalNum := s.curTotalNum + 1 } : LfuCache K V).nodeMap =
      s.nodeMap := by rw [recomputeAvg_nodeMap]
  have h1bk : (recomputeAvg { s with curTotalNum := s.curTotalNum + 1 } : LfuCache K V).buckets =
      s.buckets := by rw [recomputeAvg_buckets]
  have h1mf : (recomputeAvg { s with curTotalNum := s.curTotalNum + 1 } : LfuCache K V).minFreq =
      s.minFreq := by rw [recomputeAvg_minFreq]
  have h1max : (recomputeAvg { s with curTotalNum := s.curTotalNum + 1 } : LfuCache K V).maxAvgNum =
      s.maxAvgNum := by rw [recomputeAvg_maxAvgNum]
  simp only [addFreqNum]
  by_cases hc : (recomputeAvg { s with curTotalNum := s.curTotalNum + 1 } : LfuCache K V).curAvgNum >
      (recomputeAvg { s with curTotalNum := s.curTotalNum + 1 } : LfuCache K V).maxAvgNum
  · rw [if_pos hc]
    have hWF := handleOver_WF hmb1
    by_cases hne : (recomputeAvg { s with curTotalNum := s.curTotalNum + 1 } : LfuCache K V).nodeMap.isEmpty = true
    · rw [hWF.2.1 hne, h1map, h1bk, h1mf]
      exact ⟨hmb, hmf, Or.inl ⟨rfl, rfl, rfl⟩⟩
    · have hmb2 := hWF.1
      have hmf2 := hWF.2.2 (by simpa using hne)
      have hfind := handleOver_find (s := recomputeAvg { s with curTotalNum := s.curTotalNum + 1 })
        (by rw [h1map]; exact hmb.1)
      refine ⟨hmb2, ?_, Or.inr ⟨?_, hmf2, ?_⟩⟩
      · rw [hmf2]
        exact updateMinFreqVal_pos (MapBuckets.bucket_pos hmb2)
      · rw [h1map] at hne
        simpa using hne
      · intro x
        have := hfind.2 x
        rw [if_neg hne, h1map, h1max] at this
        exact this
  · rw [if_neg hc]
    rw [h1map, h1bk, h1mf]
    exact ⟨hmb, hmf, Or.inl ⟨rfl, rfl, rfl⟩⟩

end LfuCache

namespace LfuCache

variable {K V : Type} [DecidableEq K]

theorem aFind_none_of_not_mem_keys {A B : Type} [DecidableEq A] {l : List (A × B)} {a : A}
    (h : a ∉ l.map Prod.fst) : aFind l a = none := by
  rcases hf : aFind l a with _ | b
  · rfl
  · exact absurd (mem_keys_of_aFind hf) h

theorem bucketIsEmpty_getD_true {bs : List (Int × List K)} {f : Int}
    (h : bucketIsEmpty bs f = true) : (aFind bs f).getD [] = [] := by
  unfold bucketIsEmpty at h
  rcases hf : aFind bs f with _ | l
  · rfl
  · rw [hf] at h
    simp only [Option.getD_some]
    exact List.isEmpty_iff.1 (by simpa using h)

theorem bucketIsEmpty_getD_false {bs : List (Int × List K)} {f : Int}
    (h : bucketIsEmpty bs f = false) : (aFind bs f).getD [] ≠ [] := by
  unfold bucketIsEmpty at h
  rcases hf : aFind bs f with _ | l
  · rw [hf] at h; simp at h
  · rw [hf] at h
    simp only [Option.getD_some]
    intro he
    rw [he] at h
    simp at h

theorem addFreqNum_length {s : LfuCache K V} (hm : (s.nodeMap.map Prod.fst).Nodup) :
    (s.addFreqNum).nodeMap.length = s.nodeMap.length := by
  have h := (addFreqNum_find hm).1
  have h1 : (s.addFreqNum).nodeMap.length = ((s.addFreqNum).nodeMap.map Prod.fst).length := by
    rw [List.length_map]
  rw [h1, h, List.length_map]

/-- Re-establishing the `minFreq` facts from `updateMinFreqVal` after a
full recomputation, given one stored frequency below `INT8_MAX`. -/
theorem umf_WF {m : List (K × LfuNode V)} {bs : List (Int × List K)}
    (hmb : MapBuckets m bs) {q0 : K × LfuNode V} (hq0 : q0 ∈ m)
    (hlt : q0.2.freq < INT8MAX) :
    1 ≤ updateMinFreqVal bs ∧
    (∀ q ∈ m, updateMinFreqVal bs ≤ q.2.freq) ∧
    (aFind bs (updateMinFreqVal bs)).getD [] ≠ [] := by
  have hq0b := hmb.2.2.2 q0 hq0
  have hl0 : ∃ l0, aFind bs q0.2.freq = some l0 ∧ q0.1 ∈ l0 := by
    rcases hfind : aFind bs q0.2.freq with _ | l0
    · rw [hfind] at hq0b; simp at hq0b
    · rw [hfind] at hq0b; exact ⟨l0, rfl, by simpa using hq0b.2⟩
  obtain ⟨l0, hl0f, hl0q⟩ := hl0
  have hp0 : ((q0.2.freq, l0) : Int × List K) ∈ bs := aFind_mem hl0f
  have hp0ne : l0 ≠ [] := fun he => by rw [he] at hl0q; simp at hl0q
  have hspec := updateMinFreqVal_spec hp0 hp0ne hlt
  refine ⟨updateMinFreqVal_pos (MapBuckets.bucket_pos hmb), ?_, ?_⟩
  · intro q hq
    have hqb := hmb.2.2.2 q hq
    rcases hfind : aFind bs q.2.freq with _ | l2
    · rw [hfind] at hqb; simp at hqb
    · rw [hfind] at hqb
      exact hspec.1 (q.2.freq, l2) (aFind_mem hfind)
        (fun he => by
          have he2 : l2 = [] := he
          rw [he2] at hqb; simp at hqb)
  · rcases hspec.2.1 with ⟨p, hp, hpne, hpeq⟩
    have hfind : aFind bs p.1 = some p.2 := aFind_of_mem_nodup hmb.2.1 hp
    rw [hpeq, hfind]
    simpa using hpne

/-- Inserting a fresh key with frequency 1 into map and bucket 1 preserves
the invariant. -/
theorem MapBuckets.insert {m : List (K × LfuNode V)} {bs : List (Int × List K)}
    (h : MapBuckets m bs) {k : K} (habs : aFind m k = none) (v : V) :
    MapBuckets (aSet m k ⟨1, v⟩) (addKeyToBucket bs 1 k) := by
  obtain ⟨hm, hbs, hbuck, hnode⟩ := h
  have hknm : k ∉ m.map Prod.fst := by
    intro hmem
    rcases aFind_isSome_of_mem_keys hmem with ⟨b, hb⟩
    rw [habs] at hb; exact Option.noConfusion hb
  have hm' : ((aSet m k ⟨1, v⟩).map Prod.fst).Nodup := keys_aSet_nodup hm
  have hbs' : ((addKeyToBucket bs 1 k).map Prod.fst).Nodup := addKeyToBucket_keys_nodup hbs
  have hnotk : ∀ g l, aFind bs g = some l → k ∉ l := by
    intro g l hgl hkin
    have := (hbuck _ (aFind_mem hgl)).2 k hkin
    rw [habs] at this
    exact Option.noConfusion this
  refine ⟨hm', hbs', ?_, ?_⟩
  · intro p hp
    have hpfind : aFind (addKeyToBucket bs 1 k) p.1 = some p.2 :=
      aFind_of_mem_nodup hbs' hp
    by_cases hp1 : p.1 = 1
    · rw [hp1, aFind_addKeyToBucket_self] at hpfind
      have hp2 : p.2 = (aFind bs 1).getD [] ++ [k] := by simpa using hpfind.symm
      rcases hold : aFind bs 1 with _ | l1
      · rw [hold] at hp2
        simp only [Option.getD_none, List.nil_append] at hp2
        refine ⟨by rw [hp2]; exact List.nodup_singleton k, fun x hx => ?_⟩
        have hxk : x = k := by rw [hp2] at hx; simpa using hx
        rw [hxk, aFind_aSet_self, hp1]
        rfl
      · rw [hold] at hp2
        simp only [Option.getD_some] at hp2
        have hknotin : k ∉ l1 := hnotk 1 l1 hold
        have hl1 := hbuck _ (aFind_mem hold)
        constructor
        · rw [hp2]
          simp [List.nodup_append, hl1.1, hknotin]
        · intro x hx
          rw [hp2] at hx
          rcases List.mem_append.1 hx with hx1 | hx1
          · have hxk : x ≠ k := fun he => hknotin (he ▸ hx1)
            rw [aFind_aSet_ne hxk, hp1]
            exact hl1.2 x hx1
          · have hxk : x = k := by simpa using hx1
            rw [hxk, aFind_aSet_self, hp1]
            rfl
    · rw [aFind_addKeyToBucket_ne hp1] at hpfind
      have hpb := hbuck _ (aFind_mem hpfind)
      refine ⟨hpb.1, fun x hx => ?_⟩
      have hxk : x ≠ k := fun he => hnotk p.1 p.2 (by rw [← hpfind]) (he ▸ hx)
      rw [aFind_aSet_ne hxk]
      exact hpb.2 x hx
  · intro q hq
    rcases mem_aSet_nodup hm hq with rfl | ⟨hqm, hqk⟩
    · refine ⟨le_refl 1, ?_⟩
      rw [show ((k, (⟨1, v⟩ : LfuNode V)) : K × LfuNode V).2.freq = 1 from rfl,
        aFind_addKeyToBucket_self]
      simp
    · have hq0 := hnode q hqm
      refine ⟨hq0.1, ?_⟩
      by_cases hqf : q.2.freq = 1
      · rw [hqf, aFind_addKeyToBucket_self]
        simp only [Option.getD_some]
        refine List.mem_append.2 (Or.inl ?_)
        rw [hqf] at hq0
        exact hq0.2
      · rw [aFind_addKeyToBucket_ne hqf]
        exact hq0.2

/-- `kickOut` on a well-formed non-empty cache: the invariant survives,
`minFreq` is untouched, every surviving frequency keeps its lower bound,
and exactly one entry leaves the map. -/
theorem kickOut_WF {s : LfuCache K V} (h : WF s) (hne : s.nodeMap ≠ []) :
    MapBuckets s.kickOut.nodeMap s.kickOut.buckets ∧
    s.kickOut.minFreq = s.minFreq ∧
    (∀ q ∈ s.kickOut.nodeMap, s.minFreq ≤ q.2.freq) ∧
    s.kickOut.nodeMap.length + 1 = s.nodeMap.length := by
  obtain ⟨hmb, hmf1, hmf2, hmf3⟩ := h
  have hl := hmf3 hne
  rcases hfind : aFind s.buckets s.minFreq with _ | l
  · rw [hfind] at hl; simp at hl
  · rcases l with _ | ⟨k0, rest⟩
    · rw [hfind] at hl; simp at hl
    · have hbe : bucketEnsure s.buckets s.minFreq = s.buckets := bucketEnsure_of_find hfind
      have hb := hmb.2.2.1 _ (aFind_mem hfind)
      have hk0 := hb.2 k0 (by simp)
      rcases hnd : aFind s.nodeMap k0 with _ | nd0
      · rw [hnd] at hk0; simp at hk0
      · have hred : s.kickOut = decreaseFreqNum
            { s with buckets := removeKeyFromBucket s.buckets nd0.freq k0,
                     nodeMap := aErase s.nodeMap k0 } nd0.freq := by
          simp only [kickOut, hbe, hfind, hnd]
        rw [hred]
        simp only [decreaseFreqNum, recomputeAvg_nodeMap, recomputeAvg_buckets,
          recomputeAvg_minFreq]
        refine ⟨MapBuckets.erase hmb hnd, by trivial, ?_, length_aErase_of_find hnd⟩
        intro q hq
        exact hmf2 q (mem_aErase_nodup hmb.1 hq).1

/-- The tail of `putInternal` (after the optional eviction): inserting the
fresh node, bumping the counters (with possible aging) and forcing
`minFreq` to 1 yields a well-formed state one entry larger. -/
theorem putTail_WF {s1 : LfuCache K V} {k : K} {v : V}
    (hmb : MapBuckets s1.nodeMap s1.buckets) (hmf : 1 ≤ s1.minFreq)
    (habs : aFind s1.nodeMap k = none) (hmax : 0 ≤ s1.maxAvgNum)
    (hbnd : ∀ q ∈ (putFresh s1 k v).addFreqNum.nodeMap, q.2.freq < INT8MAX) :
    WF { (putFresh s1 k v).addFreqNum with minFreq := min (putFresh s1 k v).addFreqNum.minFreq 1 } ∧
    (putFresh s1 k v).addFreqNum.nodeMap.length = s1.nodeMap.length + 1 := by
  have hknm : k ∉ s1.nodeMap.map Prod.fst := by
    intro hmem
    rcases aFind_isSome_of_mem_keys hmem with ⟨b, hb⟩
    rw [habs] at hb; exact Option.noConfusion hb
  have hmb2 : MapBuckets (putFresh s1 k v).nodeMap (putFresh s1 k v).buckets :=
    MapBuckets.insert hmb habs v
  have hmf2 : 1 ≤ (putFresh s1 k v).minFreq := hmf
  have hWF3 := addFreqNum_WF hmb2 hmf2
  have hfself : aFind (putFresh s1 k v).nodeMap k = some ⟨1, v⟩ := aFind_aSet_self
  have hkfind : aFind (putFresh s1 k v).addFreqNum.nodeMap k = some ⟨1, v⟩ := by
    rcases hWF3.2.2 with ⟨_, hmapeq, _⟩ | ⟨_, _, hchar⟩
    · rw [hmapeq, hfself]
    · rw [hchar k, hfself]
      have hmaxeq : (putFresh s1 k v).maxAvgNum = s1.maxAvgNum := rfl
      simp only [Option.map_some']
      rw [show agedFreq (putFresh s1 k v).maxAvgNum (1 : Int) = 1 from by
        rw [hmaxeq]; exact agedFreq_one hmax]
  have hkentry : ((k, (⟨1, v⟩ : LfuNode V)) : K × LfuNode V) ∈ (putFresh s1 k v).addFreqNum.nodeMap :=
    aFind_mem hkfind
  have hminpos : 1 ≤ (putFresh s1 k v).addFreqNum.minFreq := hWF3.2.1
  have hminval : min (putFresh s1 k v).addFreqNum.minFreq 1 = 1 := min_eq_right hminpos
  constructor
  · refine ⟨hWF3.1, ?_, ?_, ?_⟩
    · show 1 ≤ min (putFresh s1 k v).addFreqNum.minFreq 1
      rw [hminval]
    · intro q hq
      show min (putFresh s1 k v).addFreqNum.minFreq 1 ≤ q.2.freq
      rw [hminval]
      exact (hWF3.1.2.2.2 q hq).1
    · intro _
      show (aFind (putFresh s1 k v).addFreqNum.buckets
        (min (putFresh s1 k v).addFreqNum.minFreq 1)).getD [] ≠ []
      rw [hminval]
      have hkb := (hWF3.1.2.2.2 _ hkentry).2
      intro he
      rw [show ((k, (⟨1, v⟩ : LfuNode V)) : K × LfuNode V).2.freq = 1 from rfl] at hkb
      rw [he] at hkb
      simp at hkb
  · have h2 : (putFresh s1 k v).addFreqNum.nodeMap.length = (putFresh s1 k v).nodeMap.length :=
      addFreqNum_length hmb2.1
    rw [h2]
    show (aSet s1.nodeMap k ⟨1, v⟩).length = s1.nodeMap.length + 1
    exact length_aSet_of_not_mem hknm

/-- `putInternal` on a well-formed state with the key absent: the result is
well-formed; the size grows by one unless the eviction guard fired, in
which case it is unchanged. -/
theorem putInternal_WF {s : LfuCache K V} {k : K} {v : V}
    (h : WF s) (hmax : 0 ≤ s.maxAvgNum) (habs : aFind s.nodeMap k = none)
    (hcap1 : cppSizeGeCap s.nodeMap.length s.capacity = true → s.nodeMap ≠ [])
    (hbnd : ∀ q ∈ (s.putInternal k v).nodeMap, q.2.freq < INT8MAX) :
    WF (s.putInternal k v) ∧
    (cppSizeGeCap s.nodeMap.length s.capacity = true →
      (s.putInternal k v).nodeMap.length = s.nodeMap.length) ∧
    (cppSizeGeCap s.nodeMap.length s.capacity = false →
      (s.putInternal k v).nodeMap.length = s.nodeMap.length + 1) := by
  by_cases hge : cppSizeGeCap s.nodeMap.length s.capacity = true
  · have hred : s.putInternal k v =
        { (putFresh s.kickOut k v).addFreqNum with
          minFreq := min (putFresh s.kickOut k v).addFreqNum.minFreq 1 } := by
      simp only [putInternal, if_pos hge]
      rfl
    have hkick := kickOut_WF h (hcap1 hge)
    have habs1 : aFind s.kickOut.nodeMap k = none := by
      apply aFind_none_of_not_mem_keys
      intro hmem
      rcases aFind_isSome_of_mem_keys ((kickOut_keys_sublist s).mem hmem) with ⟨b, hb⟩
      rw [habs] at hb
      exact Option.noConfusion hb
    have hmax1 : 0 ≤ s.kickOut.maxAvgNum := by
      rw [(kickOut_fields s).2.1]; exact hmax
    have hmf1 : 1 ≤ s.kickOut.minFreq := by
      rw [(kickOut_fields s).2.2]; exact h.2.1
    have hbnd1 : ∀ q ∈ (putFresh s.kickOut k v).addFreqNum.nodeMap, q.2.freq < INT8MAX := by
      intro q hq
      apply hbnd
      rw [hred]
      exact hq
    have htail := putTail_WF hkick.1 hmf1 habs1 hmax1 hbnd1
    refine ⟨by rw [hred]; exact htail.1, fun _ => ?_, fun hf => by rw [hge] at hf; cases hf⟩
    rw [hred]
    show (putFresh s.kickOut k v).addFreqNum.nodeMap.length = s.nodeMap.length
    rw [htail.2]
    omega
  · have hred : s.putInternal k v =
        { (putFresh s k v).addFreqNum with
          minFreq := min (putFresh s k v).addFreqNum.minFreq 1 } := by
      simp only [putInternal, if_neg hge]
      rfl
    have hbnd1 : ∀ q ∈ (putFresh s k v).addFreqNum.nodeMap, q.2.freq < INT8MAX := by
      intro q hq
      apply hbnd
      rw [hred]
      exact hq
    have htail := putTail_WF h.1 h.2.1 habs hmax hbnd1
    refine ⟨by rw [hred]; exact htail.1, fun hf => absurd hf hge, fun _ => ?_⟩
    rw [hred]
    exact htail.2

/-- `addFreqNum` on a fully well-formed non-empty state keeps
well-formedness (the aging branch needs every resulting frequency below
`INT8_MAX` for the sentinel in `updateMinFreq` to be correct) and the
number of entries. -/
theorem addFreqNum_WF_full {s2 : LfuCache K V} (h : WF s2) (hne : s2.nodeMap ≠ [])
    (hbnd : ∀ q ∈ s2.addFreqNum.nodeMap, q.2.freq < INT8MAX) :
    WF s2.addFreqNum ∧ s2.addFreqNum.nodeMap.length = s2.nodeMap.length := by
  obtain ⟨hmb, hmf, hW6, hW3⟩ := h
  have hWF3 := addFreqNum_WF hmb hmf
  have hlen : s2.addFreqNum.nodeMap.length = s2.nodeMap.length := addFreqNum_length hmb.1
  have hne2 : s2.addFreqNum.nodeMap ≠ [] := by
    intro he
    apply hne
    have := hlen
    rw [he] at this
    exact List.eq_nil_of_length_eq_zero this.symm
  refine ⟨⟨hWF3.1, hWF3.2.1, ?_, ?_⟩, hlen⟩
  all_goals
    rcases hWF3.2.2 with ⟨hmfeq, hmapeq, hbkeq⟩ | ⟨_, hmfeq, _⟩
  · rw [hmfeq, hmapeq]
    exact hW6
  · rcases List.exists_mem_of_ne_nil _ hne2 with ⟨q0, hq0⟩
    have humf := umf_WF hWF3.1 hq0 (hbnd q0 hq0)
    intro q hq
    rw [hmfeq]
    exact humf.2.1 q hq
  · intro h3
    rw [hmapeq] at h3
    rw [hbkeq, hmfeq]
    exact hW3 h3
  · rcases List.exists_mem_of_ne_nil _ hne2 with ⟨q0, hq0⟩
    have humf := umf_WF hWF3.1 hq0 (hbnd q0 hq0)
    intro _
    rw [hmfeq]
    exact humf.2.2

/-- `getInternal` on a well-formed state whose map holds the argument node:
well-formedness is preserved (under frequency boundedness of the result)
and the number of entries is unchanged. -/
theorem getInternal_WF {s : LfuCache K V} {k : K} {nd : LfuNode V}
    (h : WF s) (hk : aFind s.nodeMap k = some nd)
    (hbnd : ∀ q ∈ (s.getInternal k nd).2.nodeMap, q.2.freq < INT8MAX) :
    WF (s.getInternal k nd).2 ∧
    (s.getInternal k nd).2.nodeMap.length = s.nodeMap.length := by
  obtain ⟨hmb, hmf, hW6, hW3⟩ := h
  have hkpair : ((k, nd) : K × LfuNode V) ∈ s.nodeMap := aFind_mem hk
  have hnodek := hmb.2.2.2 (k, nd) hkpair
  have hfreqk : s.minFreq ≤ nd.freq := hW6 (k, nd) hkpair
  have hsne : s.nodeMap ≠ [] := List.ne_nil_of_mem hkpair
  have hmove : MapBuckets (promote s k nd).nodeMap (promote s k nd).buckets :=
    MapBuckets.move hmb hk (by have := hnodek.1; omega) nd.value
  have hkmem : k ∈ s.nodeMap.map Prod.fst := mem_keys_of_aFind hk
  have hplen : (promote s k nd).nodeMap.length = s.nodeMap.length := length_aSet_of_mem hkmem
  have hpne : (promote s k nd).nodeMap ≠ [] := by
    intro he
    apply hsne
    have := hplen
    rw [he] at this
    exact List.eq_nil_of_length_eq_zero this.symm
  by_cases hC : nd.freq + 1 = s.minFreq + 1 ∧
      bucketIsEmpty (addKeyToBucket (removeKeyFromBucket s.buckets nd.freq k) (nd.freq + 1) k)
        s.minFreq = true
  · have hred : (s.getInternal k nd).2 =
        ({ promote s k nd with minFreq := s.minFreq + 1 } : LfuCache K V).addFreqNum := by
      simp only [getInternal]
      rw [if_pos hC]
      rfl
    have hWFmid : WF ({ promote s k nd with minFreq := s.minFreq + 1 } : LfuCache K V) := by
      refine ⟨hmove, ?_, ?_, ?_⟩
      · show (1 : Int) ≤ s.minFreq + 1
        omega
      · intro q hq
        rcases mem_aSet_nodup hmb.1 hq with rfl | ⟨hqm, hqk⟩
        · show s.minFreq + 1 ≤ nd.freq + 1
          omega
        · show s.minFreq + 1 ≤ q.2.freq
          have hq2 : q.1 ∈ (aFind (addKeyToBucket (removeKeyFromBucket s.buckets nd.freq k)
              (nd.freq + 1) k) q.2.freq).getD [] := (hmove.2.2.2 q hq).2
          have hge : s.minFreq ≤ q.2.freq := hW6 q hqm
          rcases eq_or_lt_of_le hge with heq | hlt
          · exfalso
            rw [← heq] at hq2
            rw [bucketIsEmpty_getD_true hC.2] at hq2
            simp at hq2
          · omega
      · intro _
        show (aFind (addKeyToBucket (removeKeyFromBucket s.buckets nd.freq k) (nd.freq + 1) k)
          (s.minFreq + 1)).getD [] ≠ []
        rw [← hC.1, aFind_addKeyToBucket_self]
        simp
    have hbnd2 : ∀ q ∈ (({ promote s k nd with minFreq := s.minFreq + 1 } :
        LfuCache K V).addFreqNum).nodeMap, q.2.freq < INT8MAX := by
      intro q hq
      apply hbnd
      rw [hred]
      exact hq
    have := addFreqNum_WF_full hWFmid hpne hbnd2
    rw [hred]
    exact ⟨this.1, by rw [this.2]; exact hplen⟩
  · have hred : (s.getInternal k nd).2 = (promote s k nd).addFreqNum := by
      simp only [getInternal]
      rw [if_neg hC]
      rfl
    have hWFmid : WF (promote s k nd) := by
      refine ⟨hmove, hmf, ?_, ?_⟩
      · intro q hq
        rcases mem_aSet_nodup hmb.1 hq with rfl | ⟨hqm, hqk⟩
        · show s.minFreq ≤ nd.freq + 1
          omega
        · exact hW6 q hqm
      · intro _
        show (aFind (addKeyToBucket (removeKeyFromBucket s.buckets nd.freq k) (nd.freq + 1) k)
          s.minFreq).getD [] ≠ []
        by_cases heq : nd.freq = s.minFreq
        · have hbe : bucketIsEmpty (addKeyToBucket (removeKeyFromBucket s.buckets nd.freq k)
              (nd.freq + 1) k) s.minFreq = false := by
            rcases Bool.eq_false_or_eq_true (bucketIsEmpty
              (addKeyToBucket (removeKeyFromBucket s.buckets nd.freq k) (nd.freq + 1) k)
              s.minFreq) with hb | hb
            · exact absurd ⟨by rw [heq], hb⟩ hC
            · exact hb
          exact bucketIsEmpty_getD_false hbe
        · have hne1 : s.minFreq ≠ nd.freq + 1 := by omega
          have hne2 : s.minFreq ≠ nd.freq := fun he => heq he.symm
          rw [aFind_addKeyToBucket_ne hne1, aFind_removeKeyFromBucket_ne hne2]
          exact hW3 hsne
    have hbnd2 : ∀ q ∈ ((promote s k nd).addFreqNum).nodeMap, q.2.freq < INT8MAX := by
      intro q hq
      apply hbnd
      rw [hred]
      exact hq
    have := addFreqNum_WF_full hWFmid hpne hbnd2
    rw [hred]
    exact ⟨this.1, by rw [this.2]; exact hplen⟩

end LfuCache

/-! ## LruCache: capacity and length across operations -/

namespace LruCache

variable {K V : Type} [DecidableEq K] [Inhabited V]

theorem put_capacity (s : LruCache K V) (k : K) (v : V) :
    (s.put k v).capacity = s.capacity := by
  unfold put updateExistingNode move2MostRecent addNewNode evictLeastRecent
  split
  · rfl
  · split <;> (try split) <;> rfl

theorem getOut_capacity (s : LruCache K V) (k : K) (out : V) :
    ((s.getOut k out).2.2).capacity = s.capacity := by
  unfold getOut move2MostRecent
  split <;> rfl

theorem remove_capacity (s : LruCache K V) (k : K) :
    (s.remove k).capacity = s.capacity := rfl

theorem step_capacity (s : LruCache K V) (op : LruOp K V) :
    (s.step op).capacity = s.capacity := by
  rcases op with ⟨k, v⟩ | k | k
  · exact put_capacity s k v
  · show ((s.getOut k default).2.2).capacity = s.capacity
    exact getOut_capacity s k default
  · rfl

theorem put_length {s : LruCache K V} {k : K} {v : V}
    (h0 : 0 ≤ s.capacity) (h64 : s.capacity < 2 ^ 64)
    (hle : (s.entries.length : Int) ≤ s.capacity) :
    ((s.put k v).entries.length : Int) ≤ s.capacity := by
  unfold put
  by_cases hc : s.capacity ≤ 0
  · rw [if_pos hc]; exact hle
  · rw [if_neg hc]
    rcases hl : s.lookupNode k with _ | e
    · show ((s.addNewNode k v).entries.length : Int) ≤ s.capacity
      unfold addNewNode evictLeastRecent
      rw [cppSizeGeCap_of_nonneg h0 h64]
      by_cases hge : s.capacity ≤ (s.entries.length : Int)
      · rw [if_pos (by simpa using hge)]
        have h1 : 1 ≤ s.entries.length := by omega
        simp only [List.length_append, List.length_tail, List.length_singleton]
        push_cast
        omega
      · rw [if_neg (by simpa using hge)]
        simp only [List.length_append, List.length_singleton]
        push_cast
        omega
    · show ((s.updateExistingNode e v).entries.length : Int) ≤ s.capacity
      unfold updateExistingNode move2MostRecent
      rcases lookupNode_key hl with ⟨hek, hemem⟩
      have hlen := length_eraseKey_of_mem hemem (k := e.key) rfl
      simp only [List.length_append, List.length_singleton]
      have : ({ e with value := v } : LruNode K V).key = e.key := rfl
      rw [this]
      push_cast
      omega

theorem getOut_length {s : LruCache K V} {k : K} {out : V}
    (hle : (s.entries.length : Int) ≤ s.capacity) :
    ((((s.getOut k out).2.2)).entries.length : Int) ≤ s.capacity := by
  unfold getOut
  rcases hl : s.lookupNode k with _ | e
  · exact hle
  · show (((s.move2MostRecent e)).entries.length : Int) ≤ s.capacity
    unfold move2MostRecent
    rcases lookupNode_key hl with ⟨hek, hemem⟩
    have hlen := length_eraseKey_of_mem hemem (k := e.key) rfl
    simp only [List.length_append, List.length_singleton]
    push_cast
    omega

theorem remove_length {s : LruCache K V} {k : K}
    (hle : (s.entries.length : Int) ≤ s.capacity) :
    ((s.remove k).entries.length : Int) ≤ s.capacity := by
  show ((s.entries.eraseP (fun e => decide (e.key = k))).length : Int) ≤ s.capacity
  have h := List.length_eraseP_le (p := fun e => decide (e.key = k)) s.entries
  have hcast : ((s.entries.eraseP (fun e => decide (e.key = k))).length : Int) ≤
      (s.entries.length : Int) := by exact_mod_cast h
  omega

theorem step_length {s : LruCache K V} {op : LruOp K V}
    (h0 : 0 ≤ s.capacity) (h64 : s.capacity < 2 ^ 64)
    (hle : (s.entries.length : Int) ≤ s.capacity) :
    (((s.step op)).entries.length : Int) ≤ s.capacity := by
  rcases op with ⟨k, v⟩ | k | k
  · exact put_length h0 h64 hle
  · exact getOut_length hle
  · exact remove_length hle

/-- Size stays within a nonnegative capacity along any run. -/
theorem run_length {cap : Int} (h0 : 0 ≤ cap) (h64 : cap < 2 ^ 64) :
    ∀ (ops : List (LruOp K V)) (s : LruCache K V),
      s.capacity = cap → (s.entries.length : Int) ≤ cap →
      (((s.run ops)).entries.length : Int) ≤ cap := by
  intro ops
  induction ops with
  | nil => intro s hc hle; exact hle
  | cons op rest ih =>
      intro s hc hle
      show ((((s.step op).run rest)).entries.length : Int) ≤ cap
      refine ih (s.step op) ?_ ?_
      · rw [step_capacity, hc]
      · have hstep : (((s.step op)).entries.length : Int) ≤ s.capacity :=
          step_length (by omega) (by omega) (by rw [hc]; exact hle)
        rw [hc] at hstep
        exact hstep

/-- A dead (capacity at most 0) LRU cache never changes state. -/
theorem dead_step {cap : Int} (hcap : cap ≤ 0) (op : LruOp K V) :
    (⟨cap, []⟩ : LruCache K V).step op = ⟨cap, []⟩ := by
  rcases op with ⟨k, v⟩ | k | k
  · show (⟨cap, []⟩ : LruCache K V).put k v = ⟨cap, []⟩
    unfold put
    rw [if_pos hcap]
  · rfl
  · rfl

theorem dead_run {cap : Int} (hcap : cap ≤ 0) (ops : List (LruOp K V)) :
    (⟨cap, []⟩ : LruCache K V).run ops = ⟨cap, []⟩ := by
  induction ops with
  | nil => rfl
  | cons op rest ih =>
      show (((⟨cap, []⟩ : LruCache K V).step op).run rest) = _
      rw [dead_step hcap op]
      exact ih

end LruCache

/-! ## LfuCache: dead cache (capacity exactly 0) -/

namespace LfuCache

variable {K V : Type} [DecidableEq K] [Inhabited V]

theorem dead_step_lfu (maxAvg : Int) (op : LfuOp K V) :
    (init 0 maxAvg : LfuCache K V).step op = init 0 maxAvg := by
  rcases op with ⟨k, v⟩ | k
  · rfl
  · rfl

theorem dead_run_lfu (maxAvg : Int) (ops : List (LfuOp K V)) :
    (init 0 maxAvg : LfuCache K V).run ops = init 0 maxAvg := by
  induction ops with
  | nil => rfl
  | cons op rest ih =>
      show ((((init 0 maxAvg : LfuCache K V)).step op).run rest) = _
      rw [dead_step_lfu maxAvg op]
      exact ih

end LfuCache

/-! ## LfuCache: well-formedness and the size bound across operations -/

namespace LfuCache

variable {K V : Type} [DecidableEq K] [Inhabited V]

/-- `put` keeps the state well-formed and the size within capacity
(non-negative capacity, non-negative `maxAvgNum`, and resulting
frequencies below `INT8_MAX`). -/
theorem put_WF {s : LfuCache K V} {k : K} {v : V}
    (h : WF s) (hmax : 0 ≤ s.maxAvgNum) (h0 : 0 ≤ s.capacity) (h64 : s.capacity < 2 ^ 64)
    (hsz : (s.nodeMap.length : Int) ≤ s.capacity)
    (hbnd : ∀ q ∈ (s.put k v).nodeMap, q.2.freq < INT8MAX) :
    WF (s.put k v) ∧ ((s.put k v).nodeMap.length : Int) ≤ s.capacity := by
  by_cases hcap : s.capacity = 0
  · have hred : s.put k v = s := by simp [put, hcap]
    rw [hred]
    exact ⟨h, hsz⟩
  · rcases hfind : aFind s.nodeMap k with _ | nd
    · have hred : s.put k v = s.putInternal k v := by
        simp only [put, if_neg hcap, hfind]
      have hcap1 : cppSizeGeCap s.nodeMap.length s.capacity = true → s.nodeMap ≠ [] := by
        intro hge
        rw [cppSizeGeCap_of_nonneg h0 h64] at hge
        have hle : s.capacity ≤ (s.nodeMap.length : Int) := of_decide_eq_true hge
        intro he
        rw [he] at hle
        simp at hle
        omega
      have hbnd1 : ∀ q ∈ (s.putInternal k v).nodeMap, q.2.freq < INT8MAX := by
        intro q hq; apply hbnd; rw [hred]; exact hq
      have hpi := putInternal_WF h hmax hfind hcap1 hbnd1
      rw [hred]
      refine ⟨hpi.1, ?_⟩
      by_cases hge : cppSizeGeCap s.nodeMap.length s.capacity = true
      · rw [hpi.2.1 hge]
        exact hsz
      · have hgef : cppSizeGeCap s.nodeMap.length s.capacity = false := by
          rcases Bool.eq_false_or_eq_true (cppSizeGeCap s.nodeMap.length s.capacity) with hb | hb
          · exact absurd hb hge
          · exact hb
        rw [hpi.2.2 hgef]
        have hlt : ¬ s.capacity ≤ (s.nodeMap.length : Int) := by
          have := hgef
          rw [cppSizeGeCap_of_nonneg h0 h64] at this
          exact of_decide_eq_false this
        push_cast
        omega
    · have hred : s.put k v =
          (({ s with nodeMap := aSet s.nodeMap k ⟨nd.freq, v⟩ } : LfuCache K V).getInternal
            k ⟨nd.freq, v⟩).2 := by
        simp only [put, if_neg hcap, hfind]
      have hkm : k ∈ s.nodeMap.map Prod.fst := mem_keys_of_aFind hfind
      have hW6k : s.minFreq ≤ nd.freq := h.2.2.1 (k, nd) (aFind_mem hfind)
      have hWF1 : WF ({ s with nodeMap := aSet s.nodeMap k ⟨nd.freq, v⟩ } : LfuCache K V) := by
        refine ⟨MapBuckets.setValue h.1 hfind v, h.2.1, ?_, ?_⟩
        · intro q hq
          rcases mem_aSet_nodup h.1.1 hq with rfl | ⟨hqm, hqk⟩
          · exact hW6k
          · exact h.2.2.1 q hqm
        · intro _
          exact h.2.2.2 (List.ne_nil_of_mem (aFind_mem hfind))
      have hkfind : aFind ({ s with nodeMap := aSet s.nodeMap k ⟨nd.freq, v⟩ } :
          LfuCache K V).nodeMap k = some ⟨nd.freq, v⟩ := aFind_aSet_self
      have hbnd1 : ∀ q ∈ ((({ s with nodeMap := aSet s.nodeMap k ⟨nd.freq, v⟩ } :
          LfuCache K V).getInternal k ⟨nd.freq, v⟩).2).nodeMap, q.2.freq < INT8MAX := by
        intro q hq; apply hbnd; rw [hred]; exact hq
      have hgi := getInternal_WF hWF1 hkfind hbnd1
      rw [hred]
      refine ⟨hgi.1, ?_⟩
      rw [hgi.2]
      show ((aSet s.nodeMap k ⟨nd.freq, v⟩).length : Int) ≤ s.capacity
      rw [length_aSet_of_mem hkm]
      exact hsz

/-- The state after `get(key, value&)` stays well-formed and keeps its
size. -/
theorem getOutState_WF {s : LfuCache K V} {k : K} {out : V}
    (h : WF s)
    (hbnd : ∀ q ∈ ((s.getOut k out).2.2).nodeMap, q.2.freq < INT8MAX) :
    WF ((s.getOut k out).2.2) ∧ ((s.getOut k out).2.2).nodeMap.length = s.nodeMap.length := by
  rcases hfind : aFind s.nodeMap k with _ | nd
  · have hred : (s.getOut k out).2.2 = s := by simp only [getOut, hfind]
    rw [hred]
    exact ⟨h, rfl⟩
  · have hred : (s.getOut k out).2.2 = (s.getInternal k nd).2 := by
      simp only [getOut, hfind]
    have hbnd1 : ∀ q ∈ ((s.getInternal k nd).2).nodeMap, q.2.freq < INT8MAX := by
      intro q hq; apply hbnd; rw [hred]; exact hq
    have hgi := getInternal_WF h hfind hbnd1
    rw [hred]
    exact hgi

theorem step_fields (s : LfuCache K V) (op : LfuOp K V) :
    (s.step op).capacity = s.capacity ∧ (s.step op).maxAvgNum = s.maxAvgNum := by
  rcases op with ⟨k, v⟩ | k
  · exact put_fields s k v
  · exact getOut_fields s k default

/-- One public operation keeps the state well-formed and the size within
capacity. -/
theorem step_WF {s : LfuCache K V} {op : LfuOp K V}
    (h : WF s) (hmax : 0 ≤ s.maxAvgNum) (h0 : 0 ≤ s.capacity) (h64 : s.capacity < 2 ^ 64)
    (hsz : (s.nodeMap.length : Int) ≤ s.capacity)
    (hbnd : ∀ q ∈ (s.step op).nodeMap, q.2.freq < INT8MAX) :
    WF (s.step op) ∧ ((s.step op).nodeMap.length : Int) ≤ s.capacity := by
  rcases op with ⟨k, v⟩ | k
  · exact put_WF h hmax h0 h64 hsz hbnd
  · have hbnd1 : ∀ q ∈ ((s.getOut k default).2.2).nodeMap, q.2.freq < INT8MAX := hbnd
    have hgo := getOutState_WF h hbnd1
    refine ⟨hgo.1, ?_⟩
    show (((s.getOut k default).2.2).nodeMap.length : Int) ≤ s.capacity
    rw [hgo.2]
    exact hsz

/-- Any sequence of public operations keeps a well-formed state with the
size bounded by the (constant) capacity, as long as every intermediate
state keeps its frequencies below `INT8_MAX`. -/
theorem run_WF {K V : Type} [DecidableEq K] [Inhabited V] {cap maxAvg : Int}
    (h0 : 0 ≤ cap) (h64 : cap < 2 ^ 64) (hmaxA : 0 ≤ maxAvg) :
    ∀ (ops : List (LfuOp K V)) (s : LfuCache K V),
      s.capacity = cap → s.maxAvgNum = maxAvg → WF s → ((s.nodeMap.length : Int) ≤ cap) →
      (∀ i, ∀ q ∈ (s.run (ops.take i)).nodeMap, q.2.freq < INT8MAX) →
      WF (s.run ops) ∧ ((s.run ops).nodeMap.length : Int) ≤ cap := by
  intro ops
  induction ops with
  | nil => intro s hc hm h hsz _; exact ⟨h, hsz⟩
  | cons op rest ih =>
      intro s hc hm h hsz hbnd
      have hbnd1 : ∀ q ∈ (s.step op).nodeMap, q.2.freq < INT8MAX := hbnd 1
      have hstep := step_WF h (by rw [hm]; exact hmaxA) (by rw [hc]; exact h0)
        (by rw [hc]; exact h64) (by rw [hc]; exact hsz) hbnd1
      have hf := step_fields s op
      show WF ((s.step op).run rest) ∧ (((s.step op).run rest).nodeMap.length : Int) ≤ cap
      refine ih (s.step op) ?_ ?_ hstep.1 ?_ (fun i => hbnd (i + 1))
      · rw [hf.1, hc]
      · rw [hf.2, hm]
      · rw [← hc]
        exact hstep.2

end LfuCache

/-! ## ArcCache: the capacity sum across operations -/

namespace ArcLfuPart

variable {K V : Type} [DecidableEq K]

theorem evictLeastFrequency_capacity (s : ArcLfuPart K V) :
    s.evictLeastFrequency.capacity = s.capacity := by
  simp only [evictLeastFrequency]
  split
  · rfl
  · split <;> rfl

theorem decreaseCapacity_zero {s : ArcLfuPart K V} (h : s.capacity = 0) :
    s.decreaseCapacity = (false, s) := by
  simp only [decreaseCapacity, if_pos h]

theorem decreaseCapacity_pos {s : ArcLfuPart K V} (h : ¬ s.capacity = 0) :
    (s.decreaseCapacity).1 = true ∧ (s.decreaseCapacity).2.capacity = s.capacity - 1 := by
  simp only [decreaseCapacity, if_neg h]
  exact ⟨by trivial, by trivial⟩

theorem decreaseCapacity_false {s : ArcLfuPart K V} (h : (s.decreaseCapacity).1 = false) :
    (s.decreaseCapacity).2 = s ∧ s.capacity = 0 := by
  by_cases h0 : s.capacity = 0
  · rw [decreaseCapacity_zero h0]
    exact ⟨rfl, h0⟩
  · exact absurd (decreaseCapacity_pos h0).1 (by rw [h]; simp)

theorem checkGhost_capacity (s : ArcLfuPart K V) (k : K) :
    ((s.checkGhost k).2).capacity = s.capacity := by
  simp only [checkGhost]
  split <;> rfl

theorem checkGhost_miss {s : ArcLfuPart K V} {k : K} (h : ((s.checkGhost k)).1 = false) :
    (s.checkGhost k).2 = s := by
  simp only [checkGhost] at h ⊢
  by_cases hmem : k ∈ s.ghost
  · rw [if_pos hmem] at h
    simp at h
  · rw [if_neg hmem]

theorem updateNodeFrequency_capacity (s : ArcLfuPart K V) (nd : ArcNode K V) :
    (s.updateNodeFrequency nd).capacity = s.capacity := rfl

theorem addNewNode_capacity (s : ArcLfuPart K V) (k : K) (v : V) :
    (s.addNewNode k v).capacity = s.capacity := by
  show (if s.capacity ≤ s.mainCache.length then s.evictLeastFrequency else s).capacity = s.capacity
  split
  · exact evictLeastFrequency_capacity s
  · rfl

theorem putPart_capacity (s : ArcLfuPart K V) (k : K) (v : V) :
    ((s.putPart k v).2).capacity = s.capacity := by
  simp only [putPart]
  split
  · rfl
  · split
    · exact updateNodeFrequency_capacity _ _
    · exact addNewNode_capacity s k v

theorem getPart_capacity (s : ArcLfuPart K V) (k : K) (out : V) :
    ((s.getPart k out).2.2).capacity = s.capacity := by
  simp only [getPart]
  split
  · exact updateNodeFrequency_capacity _ _
  · rfl

end ArcLfuPart

namespace ArcLruPart

variable {K V : Type} [DecidableEq K]

theorem evictLru_capacity (s : ArcLruPart K V) :
    s.evictLru.capacity = s.capacity := by
  simp only [evictLru]
  split <;> rfl

theorem decreaseCapacity_zero_lru {s : ArcLruPart K V} (h : s.capacity = 0) :
    s.decreaseCapacity = (false, s) := by
  simp only [decreaseCapacity, if_pos h]

theorem decreaseCapacity_pos_lru {s : ArcLruPart K V} (h : ¬ s.capacity = 0) :
    (s.decreaseCapacity).1 = true ∧ (s.decreaseCapacity).2.capacity = s.capacity - 1 := by
  simp only [decreaseCapacity, if_neg h]
  exact ⟨by trivial, by trivial⟩

theorem decreaseCapacity_false_lru {s : ArcLruPart K V} (h : (s.decreaseCapacity).1 = false) :
    (s.decreaseCapacity).2 = s ∧ s.capacity = 0 := by
  by_cases h0 : s.capacity = 0
  · rw [decreaseCapacity_zero_lru h0]
    exact ⟨rfl, h0⟩
  · exact absurd (decreaseCapacity_pos_lru h0).1 (by rw [h]; simp)

theorem checkGhost_capacity_lru (s : ArcLruPart K V) (k : K) :
    ((s.checkGhost k).2).capacity = s.capacity := by
  simp only [checkGhost]
  split <;> rfl

theorem checkGhost_miss_lru {s : ArcLruPart K V} {k : K} (h : ((s.checkGhost k)).1 = false) :
    (s.checkGhost k).2 = s := by
  simp only [checkGhost] at h ⊢
  by_cases hmem : k ∈ s.ghost
  · rw [if_pos hmem] at h
    simp at h
  · rw [if_neg hmem]

theorem putPart_capacity_lru (s : ArcLruPart K V) (k : K) (v : V) :
    ((s.putPart k v).2).capacity = s.capacity := by
  simp only [putPart]
  split
  · rfl
  · split
    · rfl
    · show ((if s.capacity ≤ s.main.length then s.evictLru else s)).capacity = s.capacity
      split
      · exact evictLru_capacity s
      · rfl

theorem getPart_capacity_lru (s : ArcLruPart K V) (k : K) (out : V) :
    ((s.getPart k out).2.2.2).capacity = s.capacity := by
  simp only [getPart]
  split
  · rfl
  · rfl

end ArcLruPart

namespace ArcCache

variable {K V : Type} [DecidableEq K]

/-- The two halves' capacity budget. -/
def capSum (s : ArcCache K V) : Nat :=
  s.lruPart.capacity + s.lfuPart.capacity

theorem capSum_checkGhostCaches (s : ArcCache K V) (k : K) :
    capSum ((s.checkGhostCaches k).2) = capSum s := by
  simp only [checkGhostCaches, capSum]
  rcases hL : s.lruPart.checkGhost k with ⟨hitL, lru1⟩
  have hlru1 : lru1.capacity = s.lruPart.capacity := by
    have := ArcLruPart.checkGhost_capacity_lru s.lruPart k
    rw [hL] at this
    exact this
  rcases hitL with _ | _
  · rcases hF : s.lfuPart.checkGhost k with ⟨hitF, lfu1⟩
    have hlfu1 : lfu1.capacity = s.lfuPart.capacity := by
      have := ArcLfuPart.checkGhost_capacity s.lfuPart k
      rw [hF] at this
      exact this
    rcases hitF with _ | _
    · rfl
    · rcases hD : lru1.decreaseCapacity with ⟨ok, lru2⟩
      have hlru1s : lru1 = s.lruPart := by
        have := ArcLruPart.checkGhost_miss_lru (k := k) (s := s.lruPart) (by rw [hL])
        rw [hL] at this
        exact this
      rcases ok with _ | _
      · have hfail := ArcLruPart.decreaseCapacity_false_lru (s := lru1) (by rw [hD])
        have hlru2 : lru2 = lru1 := by
          have := hfail.1
          rw [hD] at this
          exact this
        show lru2.capacity + lfu1.capacity = s.lruPart.capacity + s.lfuPart.capacity
        rw [hlru2, hlru1, hlfu1]
      · have hok := ArcLruPart.decreaseCapacity_pos_lru (s := lru1)
          (fun h0 => by
            have := ArcLruPart.decreaseCapacity_zero_lru (s := lru1) h0
            rw [hD] at this
            simp at this)
        have hlru2 : lru2.capacity = lru1.capacity - 1 := by
          have := hok.2
          rw [hD] at this
          exact this
        have hpos : lru1.capacity ≠ 0 := fun h0 => by
          have := ArcLruPart.decreaseCapacity_zero_lru (s := lru1) h0
          rw [hD] at this
          simp at this
        show lru2.capacity + (lfu1.capacity + 1) = s.lruPart.capacity + s.lfuPart.capacity
        rw [hlru2, hlru1, hlfu1]
        have : s.lruPart.capacity ≠ 0 := by rw [← hlru1]; exact hpos
        omega
  · rcases hD : s.lfuPart.decreaseCapacity with ⟨ok, lfu1⟩
    rcases ok with _ | _
    · have hfail := ArcLfuPart.decreaseCapacity_false (s := s.lfuPart) (by rw [hD])
      have hlfu1 : lfu1 = s.lfuPart := by
        have := hfail.1
        rw [hD] at this
        exact this
      show lru1.capacity + lfu1.capacity = s.lruPart.capacity + s.lfuPart.capacity
      rw [hlfu1, hlru1]
    · have hlfu1 : lfu1.capacity = s.lfuPart.capacity - 1 := by
        have := (ArcLfuPart.decreaseCapacity_pos (s := s.lfuPart)
          (fun h0 => by
            have := ArcLfuPart.decreaseCapacity_zero (s := s.lfuPart) h0
            rw [hD] at this
            simp at this)).2
        rw [hD] at this
        exact this
      have hpos : s.lfuPart.capacity ≠ 0 := fun h0 => by
        have := ArcLfuPart.decreaseCapacity_zero (s := s.lfuPart) h0
        rw [hD] at this
        simp at this
      show lru1.capacity + 1 + lfu1.capacity = s.lruPart.capacity + s.lfuPart.capacity
      rw [hlru1, hlfu1]
      omega

theorem capSum_put (s : ArcCache K V) (k : K) (v : V) :
    capSum (s.put k v) = capSum s := by
  have hg := capSum_checkGhostCaches s k
  simp only [put]
  split
  · show ((s.checkGhostCaches k).2.lruPart.putPart k v).2.capacity +
      (s.checkGhostCaches k).2.lfuPart.capacity = capSum s
    rw [ArcLruPart.putPart_capacity_lru]
    exact hg
  · rcases hp : (s.checkGhostCaches k).2.lruPart.putPart k v with ⟨promoted, lru1⟩
    have hlru1 : lru1.capacity = (s.checkGhostCaches k).2.lruPart.capacity := by
      have := ArcLruPart.putPart_capacity_lru (s.checkGhostCaches k).2.lruPart k v
      rw [hp] at this
      exact this
    rcases promoted with _ | _
    · show lru1.capacity + (s.checkGhostCaches k).2.lfuPart.capacity = capSum s
      rw [hlru1]
      exact hg
    · show lru1.capacity + ((s.checkGhostCaches k).2.lfuPart.putPart k v).2.capacity = capSum s
      rw [ArcLfuPart.putPart_capacity, hlru1]
      exact hg

theorem capSum_getOut (s : ArcCache K V) (k : K) (out : V) :
    capSum ((s.getOut k out).2.2) = capSum s := by
  have hg := capSum_checkGhostCaches s k
  simp only [getOut]
  split
  · split
    · show (s.checkGhostCaches k).2.lruPart.getPart k out |>.2.2.2.capacity +
        ((s.checkGhostCaches k).2.lfuPart.putPart k _).2.capacity = capSum s
      rw [ArcLruPart.getPart_capacity_lru, ArcLfuPart.putPart_capacity]
      exact hg
    · show ((s.checkGhostCaches k).2.lruPart.getPart k out).2.2.2.capacity +
        (s.checkGhostCaches k).2.lfuPart.capacity = capSum s
      rw [ArcLruPart.getPart_capacity_lru]
      exact hg
  · show (s.checkGhostCaches k).2.lruPart.capacity +
      ((s.checkGhostCaches k).2.lfuPart.getPart k out).2.2.capacity = capSum s
    rw [ArcLfuPart.getPart_capacity]
    exact hg

end ArcCache

/-! ## Support lemmas for the claim analyses -/

namespace LruCache

variable {K V : Type} [DecidableEq K]

/-- `get` immediately after `put` hits and returns the just-stored value. -/
theorem getOut_after_put {s : LruCache K V} {k : K} {v : V} (out : V)
    (hwf : s.WF) (hcap : 0 < s.capacity) :
    ((s.put k v).getOut k out).1 = true ∧ ((s.put k v).getOut k out).2.1 = v := by
  rcases lookupNode_put_self (k := k) (v := v) hwf hcap with ⟨c, hl⟩
  simp only [getOut, hl]
  exact ⟨by trivial, by trivial⟩

/-- At capacity, a put of an absent key drops exactly the head-adjacent
entry and appends the new node (access count 1) at the tail. -/
theorem put_at_capacity {s : LruCache K V} {k : K} {v : V}
    (hcap : 1 ≤ s.capacity) (h64 : s.capacity < 2 ^ 64)
    (hlen : (s.entries.length : Int) = s.capacity)
    (habs : s.lookupNode k = none) :
    (s.put k v).entries = s.entries.tail ++ [⟨k, v, 1⟩] := by
  have hred : s.put k v = s.addNewNode k v := by
    simp only [put, habs]
    rw [if_neg (by omega)]
  rw [hred]
  simp only [addNewNode]
  rw [cppSizeGeCap_of_nonneg (by omega) h64]
  rw [if_pos (decide_eq_true (by omega))]
  rfl

/-- Below capacity, a put of an absent key evicts nothing: it appends the
new node (access count 1) at the tail. -/
theorem put_below_capacity {s : LruCache K V} {k : K} {v : V}
    (h0 : 0 ≤ s.capacity) (h64 : s.capacity < 2 ^ 64)
    (hlen : (s.entries.length : Int) < s.capacity)
    (habs : s.lookupNode k = none) :
    (s.put k v).entries = s.entries ++ [⟨k, v, 1⟩] := by
  have hred : s.put k v = s.addNewNode k v := by
    simp only [put, habs]
    rw [if_neg (by omega)]
  rw [hred]
  simp only [addNewNode]
  rw [cppSizeGeCap_of_nonneg h0 h64]
  rw [if_neg (by rw [decide_eq_true_eq]; omega)]

end LruCache

namespace LfuCache

variable {K V : Type} [DecidableEq K]

/-- `get` immediately after `put` hits and returns the just-stored value. -/
theorem getOut_after_put_lfu {s : LfuCache K V} {k : K} {v : V} (out : V)
    (hm : (s.nodeMap.map Prod.fst).Nodup) (hcap : s.capacity ≠ 0) :
    ((s.put k v).getOut k out).1 = true ∧ ((s.put k v).getOut k out).2.1 = v := by
  have hf := put_find_value (k := k) (v := v) hm hcap
  rcases hfind : aFind (s.put k v).nodeMap k with _ | nd
  · rw [hfind] at hf; simp at hf
  · rw [hfind] at hf
    have hv : nd.value = v := by simpa using hf
    simp only [getOut, hfind]
    exact ⟨by trivial, hv⟩

/-- A `put` on a present key is the value overwrite followed by exactly the
promotion a `get` on the overwritten state performs. -/
theorem put_present_promotes {s : LfuCache K V} {k : K} {v : V} {nd : LfuNode V} (out : V)
    (hcap : s.capacity ≠ 0) (hk : aFind s.nodeMap k = some nd) :
    s.put k v =
      ((({ s with nodeMap := aSet s.nodeMap k ⟨nd.freq, v⟩ } : LfuCache K V)).getOut k out).2.2 := by
  simp only [put, if_neg hcap, hk]
  simp only [getOut]
  rw [show aFind ({ s with nodeMap := aSet s.nodeMap k ⟨nd.freq, v⟩ } : LfuCache K V).nodeMap k =
    some ⟨nd.freq, v⟩ from aFind_aSet_self]

/-- The freshly constructed cache is well-formed. -/
theorem init_WF (cap maxAvg : Int) : WF (init cap maxAvg : LfuCache K V) := by
  refine ⟨⟨?_, ?_, ?_, ?_⟩, ?_, ?_, ?_⟩ <;> simp [init, INT8MAX]

/-- Membership in the non-empty-bucket frequency list. -/
theorem mem_nonemptyBucketFreqs {s : LfuCache K V} {f : Int} :
    f ∈ s.nonemptyBucketFreqs ↔ ∃ p ∈ s.buckets, p.2 ≠ [] ∧ p.1 = f := by
  simp only [CacheCpp.LfuCache.nonemptyBucketFreqs, List.mem_map, List.mem_filter]
  constructor
  · rintro ⟨p, ⟨hp, hne⟩, hf⟩
    exact ⟨p, hp, by simpa using hne, hf⟩
  · rintro ⟨p, hp, hne, hf⟩
    exact ⟨p, ⟨hp, by simpa using hne⟩, hf⟩

end LfuCache

namespace LruKCache

variable {K : Type} [DecidableEq K]

/-- A `put` whose main-cache probe hits and whose bumped history count stays
below the threshold overwrites main and also writes the bumped count back
into the history cache. -/
theorem put_present_below {s : LruKCache K} {k : K} {v : String}
    (hhit : (s.mainCache.getByValue k).1 ≠ "")
    (hbelow : cppSizeGeCap ((s.historyList.getByValue k).1 + 1) s.kThreshold = false) :
    (s.put k v).mainCache = ((s.mainCache.getByValue k).2.put k v) ∧
    (s.put k v).historyList =
      ((s.historyList.getByValue k).2.put k ((s.historyList.getByValue k).1 + 1)) := by
  simp only [put]
  rw [if_pos hhit]
  rw [if_neg (by simp [hbelow])]
  exact ⟨rfl, rfl⟩

end LruKCache

namespace ArcCache

variable {K V : Type} [DecidableEq K]

/-- With both ghost lists empty the ghost check reports no hit and leaves
the state unchanged. -/
theorem checkGhostCaches_no_ghosts {s : ArcCache K V} (k : K)
    (h1 : s.lruPart.ghost = []) (h2 : s.lfuPart.ghost = []) :
    s.checkGhostCaches k = (false, s) := by
  simp only [checkGhostCaches, ArcLruPart.checkGhost, ArcLfuPart.checkGhost, h1, h2]
  simp

/-- A `get` on a ghost-free state whose LRU half holds the key returns the
stored value. -/
theorem getOut_main_hit {s : ArcCache K V} {k : K} {nd : ArcNode K V} (out : V)
    (h1 : s.lruPart.ghost = []) (h2 : s.lfuPart.ghost = [])
    (h3 : s.lruPart.findMain k = some nd) :
    ((s.getOut k out)).1 = true ∧ ((s.getOut k out)).2.1 = nd.value := by
  simp only [getOut, checkGhostCaches_no_ghosts k h1 h2]
  simp only [ArcLruPart.getPart, h3]
  exact ⟨by trivial, by trivial⟩

/-- A `put` on the freshly constructed cache (capacity at least 1) lands in
the LRU half's main segment and creates no ghosts. -/
theorem put_fresh {cap t : Nat} (hcap : 1 ≤ cap) (k : K) (v : V) :
    ((ArcCache.init cap t : ArcCache K V).put k v).lruPart.findMain k = some ⟨k, v, 1⟩ ∧
    ((ArcCache.init cap t : ArcCache K V).put k v).lruPart.ghost = [] ∧
    ((ArcCache.init cap t : ArcCache K V).put k v).lfuPart.ghost = [] := by
  have hcz : ¬ cap = 0 := by omega
  have hc0 : ¬ cap ≤ 0 := by omega
  have hg : (ArcCache.init cap t : ArcCache K V).checkGhostCaches k =
      (false, (ArcCache.init cap t : ArcCache K V)) := checkGhostCaches_no_ghosts k rfl rfl
  simp only [put, hg]
  by_cases ht : t ≤ 1 <;>
    simp [ArcCache.init, ArcLruPart.initPart, ArcLfuPart.initPart, ArcLruPart.putPart,
      ArcLfuPart.putPart, ArcLruPart.findMain, ArcLfuPart.findMain, ArcLfuPart.addNewNode,
      ArcLfuPart.evictLeastFrequency, sAddBack, sInsert, hcz, hc0, ht]

end ArcCache

/-! ## Evaluating the aging scenario in bounded chunks -/

theorem LfuCache.run_append {K V : Type} [DecidableEq K] [Inhabited V]
    (s : LfuCache K V) (l1 l2 : List (LfuOp K V)) :
    s.run (l1 ++ l2) = (s.run l1).run l2 := by
  simp [LfuCache.run, List.foldl_append]

set_option maxRecDepth 200000 in
set_option maxHeartbeats 4000000 in
theorem agingA : LfuCache.run (LfuCache.init 1 251 : LfuCache Nat Nat)
    (LfuOp.put 0 5 :: List.replicate 63 (LfuOp.get 0)) = agingMid 64 := by
  decide

set_option maxRecDepth 200000 in
set_option maxHeartbeats 4000000 in
theorem agingB : LfuCache.run (agingMid 64) (List.replicate 63 (LfuOp.get 0)) = agingMid 127 := by
  decide

set_option maxRecDepth 200000 in
set_option maxHeartbeats 4000000 in
theorem agingC : LfuCache.run (agingMid 127) (List.replicate 63 (LfuOp.get 0)) = agingMid 190 := by
  decide

set_option maxRecDepth 200000 in
set_option maxHeartbeats 4000000 in
theorem agingD : LfuCache.run (agingMid 190) (List.replicate 62 (LfuOp.get 0)) = agingFinal := by
  decide

set_option maxRecDepth 100000 in
/-- The aging scenario evaluates, chunk by chunk, to `agingFinal`. -/
theorem lfuAgingScenario_eval : lfuAgingScenario = agingFinal := by
  have hops : (LfuOp.put 0 5 :: List.replicate 251 (LfuOp.get 0) : List (LfuOp Nat Nat)) =
      (LfuOp.put 0 5 :: List.replicate 63 (LfuOp.get 0)) ++ (List.replicate 63 (LfuOp.get 0) ++
        (List.replicate 63 (LfuOp.get 0) ++ List.replicate 62 (LfuOp.get 0))) := by
    simp [← List.replicate_add]
  show LfuCache.run (LfuCache.init 1 251) (LfuOp.put 0 5 :: List.replicate 251 (LfuOp.get 0)) = _
  rw [hops, LfuCache.run_append, LfuCache.run_append, LfuCache.run_append,
    agingA, agingB, agingC, agingD]

/-! ## The claims -/

/-- C1 (amended): `get(k)` immediately after `put(k,v)` returns `v` for an
LruCache (well-formed, positive capacity) and an LfuCache (distinct keys,
capacity at least 1) in any state, and for an ArcCache with capacity at
least 1 in its freshly constructed state.  (On reachable ArcCache states
the property fails: see the counterexample, where ghost-driven capacity
shifts have starved the LRU half to capacity 0 and the routed put is a
silent no-op.) -/
theorem claim_C1 {K V : Type} [DecidableEq K] (k : K) (v out : V) :
    (∀ s : LruCache K V, s.WF → 0 < s.capacity →
      ((s.put k v).getOut k out).1 = true ∧ ((s.put k v).getOut k out).2.1 = v) ∧
    (∀ s : LfuCache K V, (s.nodeMap.map Prod.fst).Nodup → 1 ≤ s.capacity →
      ((s.put k v).getOut k out).1 = true ∧ ((s.put k v).getOut k out).2.1 = v) ∧
    (∀ cap t : Nat, 1 ≤ cap →
      ((((ArcCache.init cap t : ArcCache K V).put k v).getOut k out)).1 = true ∧
      ((((ArcCache.init cap t : ArcCache K V).put k v).getOut k out)).2.1 = v) := by
  refine ⟨?_, ?_, ?_⟩
  · intro s hwf hcap
    exact LruCache.getOut_after_put out hwf hcap
  · intro s hm hcap
    exact LfuCache.getOut_after_put_lfu out hm (by omega)
  · intro cap t hcap
    rcases ArcCache.put_fresh (t := t) hcap k v with ⟨h3, h1, h2⟩
    exact ArcCache.getOut_main_hit out h1 h2 h3

/-- C1 witness: put-then-get on concrete fresh caches of each policy. -/
theorem claim_C1_witness :
    ((((LruCache.init 2 : LruCache Nat Nat).put 1 5).getOut 1 0).1 = true ∧
      (((LruCache.init 2 : LruCache Nat Nat).put 1 5).getOut 1 0).2.1 = 5) ∧
    ((((LfuCache.init 2 10 : LfuCache Nat Nat).put 1 5).getOut 1 0).1 = true ∧
      (((LfuCache.init 2 10 : LfuCache Nat Nat).put 1 5).getOut 1 0).2.1 = 5) ∧
    ((((ArcCache.init 1 2 : ArcCache Nat Nat).put 1 5).getOut 1 0).1 = true ∧
      (((ArcCache.init 1 2 : ArcCache Nat Nat).put 1 5).getOut 1 0).2.1 = 5) :=
  ⟨(claim_C1 1 5 0).1 (LruCache.init 2) (by decide) (by decide),
   (claim_C1 1 5 0).2.1 (LfuCache.init 2 10) (by decide) (by decide),
   (claim_C1 1 5 0).2.2 1 2 (by decide)⟩

/-- C1 counterexample: on the reachable ARC state `arcScenario` (built from
capacity 1 with five puts/gets), `put(1,44)` followed immediately by
`get(1)` misses: the ghost-driven shifts starved the LRU half to capacity
0, so the routed put inserted nothing. -/
theorem claim_C1_counterexample :
    (arcScenarioPut.getOut 1 99).1 = false ∧ (arcScenarioPut.getOut 1 99).2.1 = 99 := by
  decide

/-- C2: the out-parameter `get` contract of LruCache and LfuCache: a hit
returns true, copies the stored value into the out parameter and performs
the recency/frequency update; a miss returns false leaving the out value
and the state unchanged. -/
theorem claim_C2 {K V : Type} [DecidableEq K] (sL : LruCache K V) (sF : LfuCache K V)
    (k : K) (out : V) :
    (∀ e, sL.lookupNode k = some e →
      sL.getOut k out = (true, e.value, sL.move2MostRecent e)) ∧
    (sL.lookupNode k = none → sL.getOut k out = (false, out, sL)) ∧
    (∀ nd, aFind sF.nodeMap k = some nd →
      sF.getOut k out = (true, nd.value, (sF.getInternal k nd).2)) ∧
    (aFind sF.nodeMap k = none → sF.getOut k out = (false, out, sF)) := by
  refine ⟨?_, ?_, ?_, ?_⟩
  · intro e he
    simp only [LruCache.getOut, he]
  · intro he
    simp only [LruCache.getOut, he]
  · intro nd hnd
    simp only [LfuCache.getOut, hnd]
    rfl
  · intro hnd
    simp only [LfuCache.getOut, hnd]

/-- C2 witness: the hit and miss branches at concrete states. -/
theorem claim_C2_witness :
    (((LruCache.init 2 : LruCache Nat Nat).put 1 5).getOut 1 0 =
      (true, 5, ((LruCache.init 2 : LruCache Nat Nat).put 1 5).move2MostRecent ⟨1, 5, 1⟩)) ∧
    ((LruCache.init 2 : LruCache Nat Nat).getOut 7 0 = (false, 0, LruCache.init 2)) ∧
    (((LfuCache.init 2 10 : LfuCache Nat Nat).put 1 5).getOut 1 0 =
      (true, 5, ((((LfuCache.init 2 10 : LfuCache Nat Nat).put 1 5)).getInternal 1 ⟨1, 5⟩).2)) ∧
    ((LfuCache.init 2 10 : LfuCache Nat Nat).getOut 7 0 = (false, 0, LfuCache.init 2 10)) :=
  ⟨(claim_C2 ((LruCache.init 2 : LruCache Nat Nat).put 1 5) (LfuCache.init 2 10) 1 0).1
      ⟨1, 5, 1⟩ (by decide),
   (claim_C2 (LruCache.init 2 : LruCache Nat Nat) (LfuCache.init 2 10) 7 0).2.1 (by decide),
   (claim_C2 (LruCache.init 2 : LruCache Nat Nat)
      ((LfuCache.init 2 10 : LfuCache Nat Nat).put 1 5) 1 0).2.2.1 ⟨1, 5⟩ (by decide),
   (claim_C2 (LruCache.init 2 : LruCache Nat Nat) (LfuCache.init 2 10) 7 0).2.2.2 (by decide)⟩

/-- C3 (amended): from a fresh cache of non-negative capacity, the size
stays within capacity after every operation sequence — unconditionally for
LruCache; for LfuCache under non-negative `maxAvgNum` and provided every
intermediate state keeps its frequencies below `INT8_MAX` (otherwise the
aging recomputation can leave `minFreq` at an empty bucket, the next
eviction removes nothing, and the size exceeds the capacity).  For
negative capacity the LfuCache claim is false outright: see the
counterexample. -/
theorem claim_C3 {K V : Type} [DecidableEq K] [Inhabited V] {cap maxAvg : Int}
    (h0 : 0 ≤ cap) (h64 : cap < 2 ^ 64) (hmax : 0 ≤ maxAvg) :
    (∀ ops : List (LruOp K V),
      (((LruCache.init cap : LruCache K V).run ops).entries.length : Int) ≤ cap) ∧
    (∀ ops : List (LfuOp K V),
      (∀ i ≤ ops.length,
        LfuCache.FreqsBounded ((LfuCache.init cap maxAvg : LfuCache K V).run (ops.take i))) →
      ((((LfuCache.init cap maxAvg : LfuCache K V).run ops).nodeMap.length : Int) ≤ cap)) := by
  constructor
  · intro ops
    exact LruCache.run_length h0 h64 ops (LruCache.init cap) rfl
      (by simpa [LruCache.init] using h0)
  · intro ops hbnd
    have hbnd2 : ∀ i, ∀ q ∈ ((LfuCache.init cap maxAvg : LfuCache K V).run (ops.take i)).nodeMap,
        q.2.freq < INT8MAX := by
      intro i
      by_cases hi : i ≤ ops.length
      · exact hbnd i hi
      · have htk : ops.take i = ops.take ops.length := by
          rw [List.take_of_length_le (by omega), List.take_length]
        rw [htk]
        exact hbnd ops.length (le_refl _)
    exact (LfuCache.run_WF h0 h64 hmax ops (LfuCache.init cap maxAvg) rfl rfl
      (LfuCache.init_WF cap maxAvg) (by simpa [LfuCache.init] using h0) hbnd2).2

/-- C3 witness: two puts into capacity-1 caches stay within capacity. -/
theorem claim_C3_witness :
    ((((LruCache.init 1 : LruCache Nat Nat).run [LruOp.put 1 5, LruOp.put 2 6]).entries.length :
      Int) ≤ 1) ∧
    ((((LfuCache.init 1 10 : LfuCache Nat Nat).run
        [LfuOp.put 1 5, LfuOp.put 2 6]).nodeMap.length : Int) ≤ 1) :=
  ⟨(@claim_C3 Nat Nat _ _ 1 10 (by decide) (by decide) (by decide)).1
      [LruOp.put 1 5, LruOp.put 2 6],
   (@claim_C3 Nat Nat _ _ 1 10 (by decide) (by decide) (by decide)).2
      [LfuOp.put 1 5, LfuOp.put 2 6] (by decide)⟩

/-- C3 counterexample: the LfuCache constructed with capacity -1 accepts an
insert (its dead-cache guard tests equality with 0 only, and the
`size >= capacity` eviction test converts -1 to a huge unsigned value), so
one entry exceeds the capacity. -/
theorem claim_C3_counterexample :
    lfuNegScenario.nodeMap.length = 1 ∧ lfuNegScenario.capacity = -1 := by
  decide

/-- C4: every ArcCache operation preserves `lruPart.capacity +
lfuPart.capacity`; `decreaseCapacity` on a half decrements exactly when
that half's capacity is non-zero, and a refused shift leaves the half
unchanged. -/
theorem claim_C4 {K V : Type} [DecidableEq K] (s : ArcCache K V) (k : K) (v out : V) :
    ArcCache.capSum (s.put k v) = ArcCache.capSum s ∧
    ArcCache.capSum ((s.getOut k out).2.2) = ArcCache.capSum s ∧
    ArcCache.capSum ((s.checkGhostCaches k).2) = ArcCache.capSum s ∧
    ((s.lfuPart.decreaseCapacity).1 = true →
      (s.lfuPart.decreaseCapacity).2.capacity + 1 = s.lfuPart.capacity) ∧
    ((s.lfuPart.decreaseCapacity).1 = false →
      (s.lfuPart.decreaseCapacity).2 = s.lfuPart ∧ s.lfuPart.capacity = 0) ∧
    ((s.lruPart.decreaseCapacity).1 = true →
      (s.lruPart.decreaseCapacity).2.capacity + 1 = s.lruPart.capacity) ∧
    ((s.lruPart.decreaseCapacity).1 = false →
      (s.lruPart.decreaseCapacity).2 = s.lruPart ∧ s.lruPart.capacity = 0) := by
  refine ⟨ArcCache.capSum_put s k v, ArcCache.capSum_getOut s k out,
    ArcCache.capSum_checkGhostCaches s k, ?_, ?_, ?_, ?_⟩
  · intro htrue
    have h0 : s.lfuPart.capacity ≠ 0 := fun hz => by
      have hzz := ArcLfuPart.decreaseCapacity_zero (s := s.lfuPart) hz
      rw [hzz] at htrue
      simp at htrue
    have := (ArcLfuPart.decreaseCapacity_pos h0).2
    omega
  · exact ArcLfuPart.decreaseCapacity_false
  · intro htrue
    have h0 : s.lruPart.capacity ≠ 0 := fun hz => by
      have hzz := ArcLruPart.decreaseCapacity_zero_lru (s := s.lruPart) hz
      rw [hzz] at htrue
      simp at htrue
    have := (ArcLruPart.decreaseCapacity_pos_lru h0).2
    omega
  · exact ArcLruPart.decreaseCapacity_false_lru

/-- C4 witness: the capacity sum is preserved on the concrete reachable
state `arcScenario`. -/
theorem claim_C4_witness :
    ArcCache.capSum (arcScenario.put 1 9) = ArcCache.capSum arcScenario ∧
    ArcCache.capSum ((arcScenario.getOut 1 0).2.2) = ArcCache.capSum arcScenario ∧
    ArcCache.capSum ((arcScenario.checkGhostCaches 1).2) = ArcCache.capSum arcScenario :=
  ⟨(claim_C4 arcScenario 1 9 0).1, (claim_C4 arcScenario 1 9 0).2.1,
   (claim_C4 arcScenario 1 9 0).2.2.1⟩

/-- C5: an LruCache at capacity (`size == capacity >= 1`) handles a put of
an absent key by dropping exactly the head-adjacent (least-recent) entry
and appending the new node with access count 1 at the tail-adjacent
position; every other entry survives in order. -/
theorem claim_C5 {K V : Type} [DecidableEq K] (s : LruCache K V) (k : K) (v : V)
    (hcap : 1 ≤ s.capacity) (h64 : s.capacity < 2 ^ 64)
    (hlen : (s.entries.length : Int) = s.capacity) (habs : s.lookupNode k = none) :
    (s.put k v).entries = s.entries.tail ++ [⟨k, v, 1⟩] :=
  LruCache.put_at_capacity hcap h64 hlen habs

/-- C5 witness: a put into a full capacity-1 cache replaces the single
(head-adjacent) entry. -/
theorem claim_C5_witness :
    (((LruCache.init 1 : LruCache Nat Nat).put 1 5).put 2 6).entries =
      ((LruCache.init 1 : LruCache Nat Nat).put 1 5).entries.tail ++ [⟨2, 6, 1⟩] :=
  claim_C5 ((LruCache.init 1 : LruCache Nat Nat).put 1 5) 2 6
    (by decide) (by decide) (by decide) (by decide)

/-- C6 (amended): the dead-cache behaviour holds for LruCache at every
capacity at most 0, but for LfuCache only at capacity exactly 0: its guard
tests `capacity_ == 0`, so a negative-capacity LfuCache accepts inserts
(see the counterexample). -/
theorem claim_C6 {K V : Type} [DecidableEq K] [Inhabited V] {cap : Int} (hcap : cap ≤ 0)
    (ops : List (LruOp K V)) (maxAvg : Int) (opsF : List (LfuOp K V)) (k : K) (out : V) :
    (LruCache.init cap : LruCache K V).run ops = LruCache.init cap ∧
    ((((LruCache.init cap : LruCache K V).run ops).getOut k out)).1 = false ∧
    (LfuCache.init 0 maxAvg : LfuCache K V).run opsF = LfuCache.init 0 maxAvg ∧
    ((((LfuCache.init 0 maxAvg : LfuCache K V).run opsF).getOut k out)).1 = false := by
  have h1 : (LruCache.init cap : LruCache K V).run ops = LruCache.init cap :=
    LruCache.dead_run hcap ops
  have h2 : (LfuCache.init 0 maxAvg : LfuCache K V).run opsF = LfuCache.init 0 maxAvg :=
    LfuCache.dead_run_lfu maxAvg opsF
  refine ⟨h1, ?_, h2, ?_⟩
  · rw [h1]
    rfl
  · rw [h2]
    rfl

/-- C6 witness: the dead-cache behaviour at capacity -1 (LRU) and 0 (LFU). -/
theorem claim_C6_witness :
    (LruCache.init (-1) : LruCache Nat Nat).run [LruOp.put 1 7] = LruCache.init (-1) ∧
    ((((LruCache.init (-1) : LruCache Nat Nat).run [LruOp.put 1 7]).getOut 1 0)).1 = false ∧
    (LfuCache.init 0 10 : LfuCache Nat Nat).run [LfuOp.put 1 7] = LfuCache.init 0 10 ∧
    ((((LfuCache.init 0 10 : LfuCache Nat Nat).run [LfuOp.put 1 7]).getOut 1 0)).1 = false :=
  claim_C6 (by decide) [LruOp.put 1 7] 10 [LfuOp.put 1 7] 1 0

/-- C6 counterexample: the LfuCache constructed with capacity -1 is not
dead: `put(1,7)` inserts, and the following `get(1)` hits with 7. -/
theorem claim_C6_counterexample :
    lfuNegScenario.capacity = -1 ∧ (aFind lfuNegScenario.nodeMap 1).isSome = true ∧
    (lfuNegScenario.getOut 1 0).1 = true ∧ (lfuNegScenario.getOut 1 0).2.1 = 7 := by
  decide

/-- C7: an LfuCache put on a present key equals the value overwrite
followed by exactly the promotion a get performs on the overwritten state
(bucket move, frequency increment, `minFreq` advance, counter bump), and
the stored value afterwards is the new one. -/
theorem claim_C7 {K V : Type} [DecidableEq K] (s : LfuCache K V) (k : K) (v : V)
    (nd : LfuNode V) (out : V) (hcap : s.capacity ≠ 0) (hk : aFind s.nodeMap k = some nd)
    (hm : (s.nodeMap.map Prod.fst).Nodup) :
    s.put k v =
      ((({ s with nodeMap := aSet s.nodeMap k ⟨nd.freq, v⟩ } : LfuCache K V)).getOut k out).2.2 ∧
    (aFind (s.put k v).nodeMap k).map LfuNode.value = some v :=
  ⟨LfuCache.put_present_promotes out hcap hk, LfuCache.put_find_value hm hcap⟩

/-- C7 witness: overwriting key 1 in a concrete two-entry-capacity cache. -/
theorem claim_C7_witness :
    ((LfuCache.init 2 10 : LfuCache Nat Nat).put 1 7).put 1 9 =
      ((({ (LfuCache.init 2 10 : LfuCache Nat Nat).put 1 7 with
          nodeMap := aSet ((LfuCache.init 2 10 : LfuCache Nat Nat).put 1 7).nodeMap 1 ⟨1, 9⟩ } :
        LfuCache Nat Nat)).getOut 1 0).2.2 ∧
    (aFind ((((LfuCache.init 2 10 : LfuCache Nat Nat).put 1 7).put 1 9)).nodeMap 1).map
      LfuNode.value = some 9 :=
  claim_C7 ((LfuCache.init 2 10 : LfuCache Nat Nat).put 1 7) 1 9 ⟨1, 7⟩ 0
    (by decide) (by decide) (by decide)

/-- C8 (amended): when the aging pass runs on a non-empty well-formed
cache, every entry's frequency becomes `max(1, freq - maxAvgNum / 2)`, and
the recomputed `minFreq` is the minimum non-empty bucket frequency
PROVIDED some non-empty bucket frequency is below `INT8_MAX` (127): the
scan seeds its minimum with the INT8_MAX sentinel and falls back to 1 when
nothing beat it, so with every surviving frequency at least 127 the
recomputed `minFreq` is 1 rather than the true minimum (see the
counterexample). -/
theorem claim_C8 {K V : Type} [DecidableEq K] (s : LfuCache K V)
    (hmb : LfuCache.MapBuckets s.nodeMap s.buckets) (hne : s.nodeMap.isEmpty = false)
    (f0 : Int) (hf0 : f0 ∈ LfuCache.nonemptyBucketFreqs (s.handleOverMaxAvgNum))
    (hlt : f0 < INT8MAX) :
    (∀ x, aFind (s.handleOverMaxAvgNum).nodeMap x =
      (aFind s.nodeMap x).map (fun nd => ⟨LfuCache.agedFreq s.maxAvgNum nd.freq, nd.value⟩)) ∧
    (s.handleOverMaxAvgNum).minFreq ∈ LfuCache.nonemptyBucketFreqs (s.handleOverMaxAvgNum) ∧
    (∀ f ∈ LfuCache.nonemptyBucketFreqs (s.handleOverMaxAvgNum),
      (s.handleOverMaxAvgNum).minFreq ≤ f) := by
  have hWF := LfuCache.handleOver_WF hmb
  have hmf := hWF.2.2 hne
  have hchar := (LfuCache.handleOver_find hmb.1).2
  rcases LfuCache.mem_nonemptyBucketFreqs.1 hf0 with ⟨p0, hp0, hp0ne, hp0f⟩
  have hspec := LfuCache.updateMinFreqVal_spec hp0 hp0ne (by rw [hp0f]; exact hlt)
  refine ⟨?_, ?_, ?_⟩
  · intro x
    have hx := hchar x
    rw [if_neg (by rw [hne]; simp)] at hx
    exact hx
  · rw [hmf]
    rcases hspec.2.1 with ⟨p, hp, hpne, hpeq⟩
    exact LfuCache.mem_nonemptyBucketFreqs.2 ⟨p, hp, hpne, hpeq.symm⟩
  · intro f hf
    rcases LfuCache.mem_nonemptyBucketFreqs.1 hf with ⟨p, hp, hpne, hpf⟩
    rw [hmf, ← hpf]
    exact hspec.1 p hp hpne

/-- C8 witness: after aging a one-entry cache the recomputed `minFreq`
lies among the non-empty bucket frequencies. -/
theorem claim_C8_witness :
    (((LfuCache.init 2 10 : LfuCache Nat Nat).put 1 7).handleOverMaxAvgNum).minFreq ∈
      LfuCache.nonemptyBucketFreqs
        (((LfuCache.init 2 10 : LfuCache Nat Nat).put 1 7).handleOverMaxAvgNum) :=
  (claim_C8 ((LfuCache.init 2 10 : LfuCache Nat Nat).put 1 7) (by decide) (by decide)
    1 (by decide) (by decide)).2.1

/-- C8 counterexample: after one insert and 251 gets on a capacity-1 cache
with `maxAvgNum = 251`, aging has run and the only non-empty bucket
frequency is 127, yet `minFreq` is 1: the INT8_MAX-seeded scan found no
frequency below its sentinel and fell back to 1 instead of the minimum
non-empty bucket. -/
theorem claim_C8_counterexample :
    LfuCache.nonemptyBucketFreqs lfuAgingScenario = [127] ∧ lfuAgingScenario.minFreq = 1 := by
  rw [lfuAgingScenario_eval]
  set_option maxRecDepth 100000 in decide

/-- C9 (amended): an LruKCache put whose key is already resident in the
main cache overwrites the value in main but does NOT leave the history
untouched: the source falls through and bumps the key's history count
(writing the incremented count back) even on a main hit.  Stated for a
bumped count below the admission threshold. -/
theorem claim_C9 {K : Type} [DecidableEq K] (s : LruKCache K) (k : K) (v : String)
    (hhit : (s.mainCache.getByValue k).1 ≠ "")
    (hbelow : cppSizeGeCap ((s.historyList.getByValue k).1 + 1) s.kThreshold = false) :
    (s.put k v).mainCache = ((s.mainCache.getByValue k).2.put k v) ∧
    (s.put k v).historyList =
      ((s.historyList.getByValue k).2.put k ((s.historyList.getByValue k).1 + 1)) :=
  LruKCache.put_present_below hhit hbelow

/-- C9 witness: overwriting key 5 (resident in main) on the concrete
scenario state writes the bumped count 1 into history. -/
theorem claim_C9_witness :
    (lrukScenario.put 5 "b").mainCache = ((lrukScenario.mainCache.getByValue 5).2.put 5 "b") ∧
    (lrukScenario.put 5 "b").historyList =
      ((lrukScenario.historyList.getByValue 5).2.put 5
        ((lrukScenario.historyList.getByValue 5).1 + 1)) :=
  claim_C9 lrukScenario 5 "b" (by decide) (by decide)

/-- C9 counterexample: key 5 is resident in main with an empty history
record; after `put(5,"b")` the history again holds an entry for 5, so the
history state for the key did not stay unchanged. -/
theorem claim_C9_counterexample :
    (lrukScenario.mainCache.lookupNode 5).isSome = true ∧
    lrukScenario.historyList.lookupNode 5 = none ∧
    (lrukScenarioPut.historyList.lookupNode 5).isSome = true ∧
    (lrukScenarioPut.mainCache.getByValue 5).1 = "b" := by
  decide

/-- C10 (amended): `purge()` empties the key map and the frequency buckets
but resets none of the scalars: `minFreq`, `curAvgNum` and `curTotalNum`
keep their pre-purge values (while `capacity` and `maxAvgNum` are
unchanged as the claim expects), so the purged cache is NOT the freshly
constructed one (see the counterexample). -/
theorem claim_C10 {K V : Type} [DecidableEq K] (s : LfuCache K V) :
    s.purge = { s with nodeMap := [], buckets := [] } ∧
    (s.purge).nodeMap = [] ∧ (s.purge).buckets = [] ∧
    (s.purge).minFreq = s.minFreq ∧ (s.purge).curAvgNum = s.curAvgNum ∧
    (s.purge).curTotalNum = s.curTotalNum ∧
    (s.purge).capacity = s.capacity ∧ (s.purge).maxAvgNum = s.maxAvgNum :=
  ⟨rfl, rfl, rfl, rfl, rfl, rfl, rfl, rfl⟩

/-- C10 counterexample: purging a capacity-2 cache holding one entry
leaves `minFreq = 1`, `curAvgNum = 1`, `curTotalNum = 1`, while the fresh
cache has `minFreq = 127` (INT8_MAX) and zero counters: the purged state
differs from the freshly constructed one. -/
theorem claim_C10_counterexample :
    lfuPurgeScenario.nodeMap = [] ∧ lfuPurgeScenario.buckets = [] ∧
    lfuPurgeScenario.minFreq = 1 ∧ lfuPurgeScenario.curTotalNum = 1 ∧
    lfuPurgeScenario.curAvgNum = 1 ∧
    (LfuCache.init 2 10 : LfuCache Nat Nat).minFreq = 127 ∧
    (LfuCache.init 2 10 : LfuCache Nat Nat).curTotalNum = 0 ∧
    lfuPurgeScenario ≠ (LfuCache.init 2 10 : LfuCache Nat Nat) := by
  decide

end CacheCpp
